import Mathlib

/-!
Verification development for the Markdown language-service core
(link extraction, rename, file-rename propagation, selection ranges).

The definitions below are a shallow embedding of the TypeScript source:

* `src/src/languageFeatures/fileRename.ts` (MdFileRenameProvider,
  MdLinkComputer, MdLinkProvider, createHref, createMdLink, NoLinkRanges,
  the link-scanning regular expressions),
* `src/unnamed/part_001` (MdRenameProvider, MdSelectionRangeProvider and
  their helper functions).

Collaborators that are external to the analysed core (tokenizer, workspace
file system, HTML parser, URI parser, slugifier, table-of-contents and
references providers, shared utility modules not included under `src/`) are
modelled from the specification; each such definition carries a doc comment
starting with `Modelled from the spec:`.

The JavaScript regular expressions used by the scanner are embedded as
hand-written recursive-descent matchers over `List Char` that reproduce the
backtracking order of the JS engine for these specific patterns (all
alternations of the source patterns are either order-disjoint or are given
explicit ordered fallbacks below).
-/

set_option maxHeartbeats 4000000

namespace MdSpec

/-! ## Positions and ranges (modelled from `types/position.ts` / `types/range.ts`) -/

/-- Modelled from the spec: an LSP text position, `line`/`character`, as used by
`vscode-languageserver-protocol`. Components are integers because the source
freely translates positions by negative deltas. -/
structure Pos where
  line : Int
  character : Int
deriving DecidableEq, Repr

/-- Modelled from the spec: an LSP range with inclusive `start` and exclusive `end`
position, ordered lexicographically. -/
structure Range where
  start : Pos
  stop : Pos
deriving DecidableEq, Repr

/-- Modelled from the spec: position `a` is before-or-equal position `b`. -/
def Pos.isBeforeOrEqual (a b : Pos) : Bool :=
  a.line < b.line || (a.line == b.line && a.character ≤ b.character)

/-- Modelled from the spec: `arePositionsEqual` from `types/position.ts`. -/
def arePositionsEqual (a b : Pos) : Bool :=
  a == b

/-- Modelled from the spec: `translatePosition` from `types/position.ts`:
shift a position by optional line/character deltas. -/
def translatePosition (p : Pos) (lineDelta : Int := 0) (characterDelta : Int := 0) : Pos :=
  { line := p.line + lineDelta, character := p.character + characterDelta }

/-- Modelled from the spec: `rangeContains` for a position: the position lies
between the range's start and end (both inclusive). -/
def rangeContainsPos (r : Range) (p : Pos) : Bool :=
  r.start.isBeforeOrEqual p && p.isBeforeOrEqual r.stop

/-- Modelled from the spec: `rangeContains` for a range: both endpoints of the
inner range lie inside the outer range. -/
def rangeContains (outer inner : Range) : Bool :=
  rangeContainsPos outer inner.start && rangeContainsPos outer inner.stop

/-- Modelled from the spec: `areRangesEqual` from `types/range.ts`. -/
def areRangesEqual (a b : Range) : Bool :=
  a == b

/-- Modelled from the spec: `modifyRange`: replace the start and/or end of a range. -/
def modifyRange (r : Range) (newStart : Option Pos := none) (newStop : Option Pos := none) : Range :=
  { start := newStart.getD r.start, stop := newStop.getD r.stop }

/-- Helper for literal ranges. -/
def mkRange (l1 c1 l2 c2 : Int) : Range :=
  ⟨⟨l1, c1⟩, ⟨l2, c2⟩⟩

/-! ## URIs and posix paths (modelled from `vscode-uri` and `util/path.ts`) -/

/-- Modelled from the spec: a workspace resource URI, reduced to the parts the
core consults: a scheme, an authority and an absolute posix path held as a
list of segments. -/
structure Uri where
  scheme : String
  authority : String
  segs : List String
deriving DecidableEq, Repr

/-- Modelled from the spec: a `file:` URI for a given segment path. -/
def fileUri (segs : List String) : Uri :=
  { scheme := "file", authority := "", segs := segs }

/-- Modelled from the spec: `Utils.dirname`: drop the last path segment. -/
def Uri.dirname (u : Uri) : Uri :=
  { u with segs := u.segs.dropLast }

/-- Modelled from the spec: the extension of a file name: the suffix starting at
the last `.` (empty when there is no dot or the name starts with its only dot). -/
def extnameOfSegment (seg : String) : String :=
  let cs := seg.data
  let rec go : List Char → List Char → List Char
    | [], acc => acc
    | '.' :: rest, _ => go rest ('.' :: rest)
    | _ :: rest, acc => go rest acc
  let ext := go cs []
  if ext.length == seg.length then "" else String.mk ext

/-- Modelled from the spec: `Utils.extname` of a URI's last segment. -/
def Uri.extname (u : Uri) : String :=
  match u.segs.getLast? with
  | none => ""
  | some s => extnameOfSegment s

/-- Modelled from the spec: posix path normalisation of `.`/`..` segments against
a base segment list (used by `Utils.joinPath`). -/
def normalizeSegs : List String → List String → List String
  | acc, [] => acc.reverse
  | acc, "." :: rest => normalizeSegs acc rest
  | acc, "" :: rest => normalizeSegs acc rest
  | acc, ".." :: rest => normalizeSegs (acc.drop 1) rest
  | acc, s :: rest => normalizeSegs (s :: acc) rest

/-- Split a character list on a separator character. -/
def splitOnChar (sep : Char) : List Char → List (List Char)
  | [] => [[]]
  | c :: rest =>
    let r := splitOnChar sep rest
    if c == sep then [] :: r
    else match r with
      | h :: t => (c :: h) :: t
      | [] => [[c]]

/-- Modelled from the spec: `Utils.joinPath(uri, relative)`: append the
`/`-separated relative path and normalise. -/
def Uri.joinPath (u : Uri) (rel : String) : Uri :=
  { u with segs := normalizeSegs u.segs.reverse ((splitOnChar '/' rel.data).map String.mk) }

/-- Modelled from the spec: `isSameResource` from `util/path.ts`: the two URIs
denote the same file-system path. -/
def isSameResource (a b : Uri) : Bool :=
  a == b

/-- Modelled from the spec: `isParentDir(dir, file)` from `util/path.ts`: `dir`
is a proper ancestor directory of `file`. -/
def isParentDir (dir file : Uri) : Bool :=
  dir.scheme == file.scheme && dir.authority == file.authority &&
    dir.segs ≠ file.segs && dir.segs.isPrefixOf file.segs

/-- Modelled from the spec: `path.posix.relative(from, to)` on segment lists:
drop the common prefix, then climb with `..` segments. -/
def relativeSegs : List String → List String → List String
  | a :: as, b :: bs =>
    if a == b then relativeSegs as bs
    else (List.replicate (as.length + 1) "..") ++ b :: bs
  | [], bs => bs
  | as, [] => List.replicate as.length ".."

/-- Modelled from the spec: join segments with `/` into a posix path string. -/
def joinSegs : List String → String
  | [] => ""
  | [a] => a
  | a :: rest => a ++ "/" ++ joinSegs rest

/-- Modelled from the spec: `computeRelativePath` from `util/path.ts`: the
relative posix path from the directory of `fromDoc` to `to`, optionally
prefixed with `./`; `none` when the URIs live on different scheme/authority. -/
def computeRelativePath (fromDoc tgt : Uri) (preferDotSlash : Bool) : Option String :=
  if fromDoc.scheme == tgt.scheme && fromDoc.authority == tgt.authority then
    let rel := relativeSegs fromDoc.segs.dropLast tgt.segs
    let text := joinSegs rel
    some (if preferDotSlash && !("..".data.isPrefixOf text.data) then "./" ++ text else text)
  else
    none

/-! ## Text documents (modelled from `types/textDocument.ts` / `types/inMemoryDocument.ts`) -/

/-- Modelled from the spec: an in-memory text document: a URI, a version and its
text, held as a list of characters. -/
structure TextDoc where
  uri : Uri
  version : Int
  text : List Char
deriving DecidableEq, Repr

/-- Line/character of the character at (0-based) offset `off` in `cs`. -/
def posInChars : List Char → Nat → Nat → Nat → Pos
  | _, 0, line, col => ⟨line, col⟩
  | [], _ + 1, line, col => ⟨line, col⟩
  | '\n' :: rest, off + 1, line, _ => posInChars rest off (line + 1) 0
  | _ :: rest, off + 1, line, col => posInChars rest off line (col + 1)

/-- Modelled from the spec: `document.positionAt(offset)`. -/
def TextDoc.positionAt (doc : TextDoc) (off : Nat) : Pos :=
  posInChars doc.text off 0 0

/-- Offset of a position inside a character list (clamped to line ends and to
the end of the text), accumulating into `acc`. -/
def offsetInChars : List Char → Int → Int → Nat → Nat
  | [], _, _, acc => acc
  | _ :: _, 0, 0, acc => acc
  | '\n' :: rest, 0, _, acc =>
    -- character ran past the end of the line: clamp at the newline
    let _ := rest
    acc
  | _ :: rest, 0, col, acc => offsetInChars rest 0 (col - 1) (acc + 1)
  | '\n' :: rest, line, col, acc => offsetInChars rest (line - 1) col (acc + 1)
  | _ :: rest, line, col, acc => offsetInChars rest line col (acc + 1)

/-- Modelled from the spec: `document.offsetAt(position)`. -/
def TextDoc.offsetAt (doc : TextDoc) (p : Pos) : Nat :=
  offsetInChars doc.text p.line p.character 0

/-- The text of 0-based line `n` of `cs`, without its line terminator. -/
def lineOfChars : List Char → Int → List Char
  | [], _ => []
  | '\n' :: rest, n => if n ≤ 0 then [] else lineOfChars rest (n - 1)
  | c :: rest, n => if n ≤ 0 then c :: lineOfChars rest 0 else lineOfChars rest n

/-- Modelled from the spec: `getLine(document, line)` from `types/textDocument.ts`. -/
def TextDoc.getLine (doc : TextDoc) (line : Int) : List Char :=
  lineOfChars doc.text line

/-- Modelled from the spec: `document.getText(range)`. -/
def TextDoc.getTextIn (doc : TextDoc) (r : Range) : List Char :=
  let a := doc.offsetAt r.start
  let b := doc.offsetAt r.stop
  (doc.text.take b).drop a

/-- Modelled from the spec: `InMemoryDocument.applyEdits` for a single
replacement edit: splice `newText` over `range`. -/
def TextDoc.replaceRange (doc : TextDoc) (r : Range) (newText : List Char) : TextDoc :=
  let a := doc.offsetAt r.start
  let b := doc.offsetAt r.stop
  { doc with text := doc.text.take a ++ newText ++ doc.text.drop b }

/-! ## Character classes of the scanner's regular expressions

These embed the JavaScript character classes used by the patterns in
`documentLinks.ts`: `\s`, `\w`, and the dot (which in JS without the `s`
flag excludes the four line-terminator characters). -/

/-- JS `\s`: the ECMAScript white-space and line-terminator characters. -/
def isWsChar (c : Char) : Bool :=
  c == ' ' || c == '\t' || c == '\n' || c == '\r' || c.val == 11 || c.val == 12 ||
  c.val == 0xa0 || c.val == 0x1680 || (0x2000 ≤ c.val && c.val ≤ 0x200a) ||
  c.val == 0x2028 || c.val == 0x2029 || c.val == 0x202f || c.val == 0x205f ||
  c.val == 0x3000 || c.val == 0xfeff

/-- JS `.` without the `s` flag: anything but a line terminator. -/
def isDotChar (c : Char) : Bool :=
  !(c == '\n' || c == '\r' || c.val == 0x2028 || c.val == 0x2029)

/-- JS `\w`: ASCII letters, digits and underscore. -/
def isWordChar (c : Char) : Bool :=
  ('a' ≤ c && c ≤ 'z') || ('A' ≤ c && c ≤ 'Z') || ('0' ≤ c && c ≤ '9') || c == '_'

/-- A JS line terminator (where `^` matches under the `m` flag). -/
def isLineTerminator (c : Char) : Bool :=
  c == '\n' || c == '\r' || c.val == 0x2028 || c.val == 0x2029

/-- Length of the longest prefix of `s` whose characters all satisfy `p`. -/
def countWhile (p : Char → Bool) : List Char → Nat
  | [] => 0
  | c :: rest => if p c then countWhile p rest + 1 else 0

/-! ## The `linkPattern` regular expression

Embeds (from `documentLinks.ts`):
```
(?<!\\)(!?\[(?:[^\[\]\\]|\\.|\[[^\[\]]*\])*\])(\(\s*)
  ([^\s\(\)\<](?:[^\s\(\)]|\([^\s\(\)]*?\))*|<(?:\\[<>]|[^<>])+>)
  \s*(?<title>"[^"]*"|'[^']*'|\([^\(\)]*\))?\s*\)
```
as a recursive-descent matcher.  At every position the alternatives of the
source pattern are distinguished by their first character, so the matcher is
deterministic except for the explicit greedy give-back loops implemented
below (the destination's item star and the angle-bracket escapes). -/

/-- The link-text body `(?:[^\[\]\\]|\\.|\[[^\[\]]*\])*` followed by the
mandatory `\]`: returns the body length (excluding the closing bracket).
The three alternatives are disjoint on their first character, and a star
give-back can never make the following `\]` match, so the parse is
deterministic. -/
def linkTextBody : Nat → List Char → Option Nat
  | 0, _ => none
  | fuel + 1, s =>
    match s with
    | [] => none
    | c :: rest =>
      if c == ']' then some 0
      else if c == '\\' then
        match rest with
        | [] => none
        | c2 :: rest2 =>
          if isDotChar c2 then (linkTextBody fuel rest2).map (· + 2) else none
      else if c == '[' then
        let k := countWhile (fun ch => !(ch == '[' || ch == ']')) rest
        (match rest.drop k with
         | ']' :: rest2 => (linkTextBody fuel rest2).map (· + (k + 2))
         | _ => none)
      else (linkTextBody fuel rest).map (· + 1)

/-- The angle-bracket destination body `(?:\\[<>]|[^<>])+` with its closing
`>`, in continuation-passing style so that the give-back between the
escape `\\[<>]` and the single-character `[^<>]` readings of a backslash
follows the JS backtracking order.  `k` receives the number of characters
consumed including the closing bracket. -/
def angleGoK (k : Nat → Option α) : Nat → List Char → Option α
  | 0, _ => none
  | fuel + 1, s =>
    match s with
    | [] => none
    | c :: rest =>
      if c == '>' then k 1
      else if c == '<' then none
      else if c == '\\' then
        match rest with
        | [] => none
        | c2 :: rest2 =>
          if c2 == '<' || c2 == '>' then
            match angleGoK (fun n => k (n + 2)) fuel rest2 with
            | some r => some r
            | none => angleGoK (fun n => k (n + 1)) fuel rest
          else angleGoK (fun n => k (n + 1)) fuel rest
      else angleGoK (fun n => k (n + 1)) fuel rest

/-- A title `"[^"]*"` or `'[^']*'` or `\([^\(\)]*\)` at the head of `s`;
returns its length. -/
def linkTitleAt : List Char → Option Nat
  | '"' :: rest =>
    let k := countWhile (fun c => !(c == '"')) rest
    match rest.drop k with
    | '"' :: _ => some (k + 2)
    | _ => none
  | '\'' :: rest =>
    let k := countWhile (fun c => !(c == '\'')) rest
    match rest.drop k with
    | '\'' :: _ => some (k + 2)
    | _ => none
  | '(' :: rest =>
    let k := countWhile (fun c => !(c == '(' || c == ')'))  rest
    match rest.drop k with
    | ')' :: _ => some (k + 2)
    | _ => none
  | _ => none

/-- The tail `\s*(?<title>"[^"]*"|'[^']*'|\([^\(\)]*\))?\s*\)` of
`linkPattern`.  Returns the consumed length and the title capture.  The JS
engine tries the title branch first; when a title parses but no `\)`
follows, the no-title branch would have to match `\)` at the title's
opening quote or parenthesis, which is impossible, so a single ordered
attempt is faithful. -/
def linkTail (s : List Char) : Option (Nat × Option (List Char)) :=
  let w1 := countWhile isWsChar s
  let s1 := s.drop w1
  match linkTitleAt s1 with
  | some t =>
    let s2 := s1.drop t
    let w2 := countWhile isWsChar s2
    match s2.drop w2 with
    | ')' :: _ => some (w1 + t + w2 + 1, some (s1.take t))
    | _ => none
  | none =>
    match s1 with
    | ')' :: _ => some (w1 + 1, none)
    | _ => none

/-- One item of the plain destination star `(?:[^\s\(\)]|\([^\s\(\)]*?\))`:
either a single character or a lazily matched parenthesised group. -/
def nextDestItem : List Char → Option Nat
  | [] => none
  | '(' :: rest =>
    let k := countWhile (fun c => !(isWsChar c || c == '(' || c == ')')) rest
    match rest.drop k with
    | ')' :: _ => some (k + 2)
    | _ => none
  | c :: _ => if isWsChar c || c == ')' then none else some 1

/-- The greedy destination star followed by `linkTail`, with JS give-back
order: prefer consuming another item; when the continuation fails, give
the last item back and try the tail at the current position. -/
def destStarThenTail : Nat → List Char → Option (Nat × Nat × Option (List Char))
  | 0, _ => none
  | fuel + 1, s =>
    match nextDestItem s with
    | some n =>
      (match destStarThenTail fuel (s.drop n) with
       | some (d, t, ti) => some (n + d, t, ti)
       | none => (linkTail s).map (fun p => (0, p.1, p.2)))
    | none => (linkTail s).map (fun p => (0, p.1, p.2))

/-- A structural match of `linkPattern`: the lengths of the captured pieces.
`g1` is `match[1]` (`!?[...]`), `g2` is `match[2]` (`(` plus white-space),
`g3` is `match[3]` (the raw destination), `tail` covers the optional title
and the closing parenthesis, and `title` is the title capture. -/
structure LinkMatch where
  g1 : Nat
  g2 : Nat
  g3 : Nat
  tail : Nat
  title : Option (List Char)
deriving DecidableEq, Repr

/-- Full length of the match. -/
def LinkMatch.len (m : LinkMatch) : Nat :=
  m.g1 + m.g2 + m.g3 + m.tail

/-- The body of a `linkPattern` match after the optional image `!` (of
length `bang`) has been consumed; `s1` must start with the opening
bracket. -/
def tryLinkAfterBang (bang : Nat) (s1 : List Char) : Option (Nat × LinkMatch) :=
  match s1 with
  | '[' :: r =>
    match linkTextBody (r.length + 1) r with
    | none => none
    | some textLen =>
      match r.drop (textLen + 1) with
      | '(' :: r2 =>
        let ws := countWhile isWsChar r2
        (match r2.drop ws with
         | '<' :: r4 =>
           -- `(?:\\[<>]|[^<>])+` needs at least one item, so `<>` never matches
           (match r4 with
            | '>' :: _ => none
            | _ =>
              angleGoK (fun n =>
                (linkTail (r4.drop n)).map (fun p =>
                  let m : LinkMatch :=
                    { g1 := bang + textLen + 2, g2 := 1 + ws, g3 := n + 1,
                      tail := p.1, title := p.2 }
                  (m.len, m))) (r4.length + 1) r4)
         | c :: r4 =>
           if isWsChar c || c == '(' || c == ')' then none
           else
             (destStarThenTail (r4.length + 1) r4).map (fun p =>
               let m : LinkMatch :=
                 { g1 := bang + textLen + 2, g2 := 1 + ws, g3 := 1 + p.1,
                   tail := p.2.1, title := p.2.2 }
               (m.len, m))
         | [] => none)
      | _ => none
  | _ => none

/-- `linkPattern` at the head of `s` (`prev` is the character before `s`,
for the `(?<!\\)` look-behind). -/
def tryLink (prev : Option Char) (s : List Char) : Option (Nat × LinkMatch) :=
  if prev == some '\\' then none else
  match s with
  | '!' :: r => tryLinkAfterBang 1 r
  | _ => tryLinkAfterBang 0 s

/-! ## The `referenceLinkPattern` regular expression

Embeds (from `documentLinks.ts`):
```
(?<![\]\\])(?:(?<prefix>!?\[(?<text>(?:\\.|[^\[\]\\]|\[[^\[\]]*\])*)\]\[\s*)
  (?<ref>(?:[^\\\]]|\\.)*?)\]
 |\[(?!\!)\s*(?<shorthand>(?:\\.|[^\[\]\\])+?)\s*\])(?![\(])
```
The text group has the same three (order-disjoint) alternatives as
`linkPattern`'s text, so `linkTextBody` is reused. -/

/-- The lazy reference name `(?:[^\\\]]|\\.)*?` followed by `\]`: length up
to the first unescaped `]` (an escaped `\]` is consumed as `\\.`). -/
def refBody : Nat → List Char → Option Nat
  | 0, _ => none
  | fuel + 1, s =>
    match s with
    | [] => none
    | c :: rest =>
      if c == ']' then some 0
      else if c == '\\' then
        match rest with
        | [] => none
        | c2 :: rest2 => if isDotChar c2 then (refBody fuel rest2).map (· + 2) else none
      else (refBody fuel rest).map (· + 1)

/-- One item of the shorthand body `(?:\\.|[^\[\]\\])`. -/
def shItem : List Char → Option Nat
  | [] => none
  | c :: rest =>
    if c == '\\' then
      match rest with
      | [] => none
      | c2 :: _ => if isDotChar c2 then some 2 else none
    else if c == '[' || c == ']' then none else some 1

/-- The lazy shorthand body `(?:\\.|[^\[\]\\])+?` followed by greedy `\s*`
and `\]`: after each item, first try to close (lazy order), otherwise
extend.  Returns (body length, trailing white-space length). -/
def shGo : Nat → List Char → Option (Nat × Nat)
  | 0, _ => none
  | fuel + 1, s =>
    match shItem s with
    | none => none
    | some n =>
      let rest := s.drop n
      let w := countWhile isWsChar rest
      if (rest.drop w).head? == some ']' then some (n, w)
      else
        match shGo fuel rest with
        | some (m, wT) => some (n + m, wT)
        | none => none

/-- The greedy leading `\s*` of the shorthand with give-back: try the body
with `w0` leading white-space characters consumed, giving one back on
failure. -/
def shLead : Nat → List Char → Option (Nat × Nat × Nat)
  | w0, s =>
    match shGo (s.length + 1) (s.drop w0) with
    | some (c, wT) => some (w0, c, wT)
    | none =>
      match w0 with
      | 0 => none
      | w + 1 => shLead w s

/-- A structural match of `referenceLinkPattern`: either `[text][ref]`
(`textRef`, with the optional image `!`, the text length, the white-space
after the second opening bracket and the reference length) or a bare
`[shorthand]` (with leading white-space, body and trailing white-space
lengths). -/
inductive RefAlt where
  | textRef (bang : Bool) (textLen wsLen refLen : Nat)
  | shorthand (w0 contentLen wT : Nat)
deriving DecidableEq, Repr

/-- Full length of the reference-link match. -/
def RefAlt.len : RefAlt → Nat
  | .textRef bang textLen wsLen refLen =>
    (if bang then 1 else 0) + textLen + wsLen + refLen + 4
  | .shorthand w0 contentLen wT => w0 + contentLen + wT + 2

/-- Length of `match[1]` (the `prefix` group `!?\[text\]\[\s*`) of a
`textRef` match. -/
def RefAlt.preLen : RefAlt → Nat
  | .textRef bang textLen wsLen _ => (if bang then 1 else 0) + textLen + wsLen + 3
  | .shorthand _ _ _ => 0

/-- The `!?\[text\]\[\s*ref\]` alternative of `referenceLinkPattern`, after
the optional image `!` has been consumed (`bang` records whether it was). -/
def tryRefText (bang : Bool) (s1 : List Char) : Option (Nat × RefAlt) :=
  match s1 with
  | '[' :: r =>
    match linkTextBody (r.length + 1) r with
    | none => none
    | some textLen =>
      match r.drop (textLen + 1) with
      | '[' :: r2 =>
        let ws := countWhile isWsChar r2
        (match refBody (r2.length + 1) (r2.drop ws) with
         | none => none
         | some refLen =>
           let m := RefAlt.textRef bang textLen ws refLen
           -- trailing `(?![\(])`
           if ((r2.drop ws).drop (refLen + 1)).head? == some '(' then none
           else some (m.len, m))
      | _ => none
  | _ => none

/-- `referenceLinkPattern` at the head of `s`.  The JS engine tries the
`[text][ref]` branch first and falls back to the shorthand branch,
re-checking the trailing `(?![\(])` look-ahead for each. -/
def tryRef (prev : Option Char) (s : List Char) : Option (Nat × RefAlt) :=
  if prev == some ']' || prev == some '\\' then none else
  let alt1 : Option (Nat × RefAlt) :=
    match s with
    | '!' :: r => tryRefText true r
    | _ => tryRefText false s
  match alt1 with
  | some r => some r
  | none =>
    match s with
    | '[' :: r =>
      if r.head? == some '!' then none
      else
        match shLead (countWhile isWsChar r) r with
        | none => none
        | some (w0, c, wT) =>
          let m := RefAlt.shorthand w0 c wT
          if (r.drop (w0 + c + wT + 1)).head? == some '(' then none
          else some (m.len, m)
    | _ => none

/-! ## The `definitionPattern` regular expression

Embeds (from `documentLinks.ts`, flags `gm`):
```
^([\t ]*(?<!\\)\[(?!\^)((?:\\\]|[^\]])+)\]:[\t ]*)([^<]\S*|<(?:\\[<>]|[^<>])+>)
```
-/

/-- The definition-name body `(?:\\\]|[^\]])+` followed by `\]:`, with the
JS give-back between the escape `\\\]` and the single-character `[^\]]`
readings of a backslash-bracket pair.  Returns the remaining body length;
the closing `\]:` is checked by the recursion itself. -/
def defGo : Nat → List Char → Option Nat
  | 0, _ => none
  | _, [] => none
  | _, ']' :: ':' :: _ => some 0
  | _, ']' :: _ => none
  | fuel + 1, '\\' :: ']' :: rest =>
    (match defGo fuel rest with
     | some n => some (n + 2)
     | none => if rest.head? == some ':' then some 1 else none)
  | fuel + 1, '\\' :: c :: rest => (defGo fuel (c :: rest)).map (· + 1)
  | _, '\\' :: [] => none
  | fuel + 1, _ :: rest => (defGo fuel rest).map (· + 1)

/-- A structural match of `definitionPattern`: leading tab/space count, the
name-body length, tab/space after the colon, and the target length.
`match[1]` has length `w0 + bodyLen + w1 + 3`, `match[2]` is the body and
`match[3]` the target. -/
structure DefMatch where
  w0 : Nat
  bodyLen : Nat
  w1 : Nat
  tgtLen : Nat
deriving DecidableEq, Repr

/-- Full length of the definition match. -/
def DefMatch.len (m : DefMatch) : Nat :=
  m.w0 + m.bodyLen + m.w1 + m.tgtLen + 3

/-- The definition target `[^<]\S*|<(?:\\[<>]|[^<>])+>` at the head of `s`. -/
def defTarget (s : List Char) : Option Nat :=
  match s with
  | [] => none
  | '<' :: r4 =>
    (match r4 with
     | '>' :: _ => none
     | _ => angleGoK (fun n => some (n + 1)) (r4.length + 1) r4)
  | _ :: rest => some (1 + countWhile (fun c => !(isWsChar c)) rest)

/-- The greedy `[\t ]*` before the target, with give-back. -/
def defTargetLead : Nat → List Char → Option (Nat × Nat)
  | w1, s =>
    match defTarget (s.drop w1) with
    | some t => some (w1, t)
    | none =>
      match w1 with
      | 0 => none
      | w + 1 => defTargetLead w s

/-- `definitionPattern` at the head of `s`.  The `^` anchor (multiline
flag) restricts matches to positions after a line terminator or at the
start of the text; the `(?<!\\)` look-behind is vacuous there because the
bracket is only ever preceded by tabs/spaces or the line start. -/
def tryDef (prev : Option Char) (s : List Char) : Option (Nat × DefMatch) :=
  let atLineStart := match prev with
    | none => true
    | some c => isLineTerminator c
  if !atLineStart then none else
  let w0 := countWhile (fun c => c == '\t' || c == ' ') s
  match s.drop w0 with
  | '[' :: r =>
    if r.head? == some '^' then none
    else if r.head? == some ']' then none  -- the body `+` needs at least one character
    else
      match defGo (r.length + 1) r with
      | none => none
      | some bodyLen =>
        -- `defGo` guarantees that `]` `:` follow the body
        let r2 := r.drop (bodyLen + 2)
        match defTargetLead (countWhile (fun c => c == '\t' || c == ' ') r2) r2 with
        | none => none
        | some (w1, t) =>
          let m : DefMatch := { w0 := w0, bodyLen := bodyLen, w1 := w1, tgtLen := t }
          some (m.len, m)
  | _ => none

/-! ## The `autoLinkPattern` regular expression

Embeds `(?<!\\)\<(\w+:[^\>\s]+)\>` (from `documentLinks.ts`). -/

/-- `autoLinkPattern` at the head of `s`; the payload is the length of the
captured `\w+:[^\>\s]+` group. -/
def tryAuto (prev : Option Char) (s : List Char) : Option (Nat × Nat) :=
  if prev == some '\\' then none else
  match s with
  | '<' :: r =>
    let w := countWhile isWordChar r
    if w == 0 then none else
    match (r.drop w).head? with
    | some ':' =>
      let r2 := r.drop (w + 1)
      let k := countWhile (fun c => !(c == '>' || isWsChar c)) r2
      if k == 0 then none else
      match (r2.drop k).head? with
      | some '>' => some (w + k + 3, w + k + 1)
      | _ => none
    | _ => none
  | _ => none

/-! ## The `inlineCodePattern` regular expression

Embeds (from `documentLinks.ts`, flags `gm`):
```
(?<!`)(`+)((?:.+?|.*?(?:(?:\r?\n).+?)*?)(?:\r?\n)?\1)(?!`)
```
-/

/-- The closing run: exactly `n` backticks not followed by another one. -/
def closeRunOk (n : Nat) (t : List Char) : Bool :=
  n ≤ t.length && (t.take n).all (fun c => c == '`') && (t.drop n).head? != some '`'

/-- The tail `(?:\r?\n)?\1(?!`)` at `t`: greedy optional newline first,
then the empty branch. -/
def tailClose (n : Nat) (t : List Char) : Option Nat :=
  (match t with
   | '\r' :: '\n' :: rest => if closeRunOk n rest then some (2 + n) else none
   | '\n' :: rest => if closeRunOk n rest then some (1 + n) else none
   | _ => none).orElse
    (fun _ => if closeRunOk n t then some n else none)

/-- The single-line alternative `.+?` of the content, lazily extended: after
each character try the tail. -/
def codeAlt1 (n : Nat) : List Char → Option Nat
  | [] => none
  | c :: rest =>
    if isDotChar c then
      match tailClose n rest with
      | some t => some (1 + t)
      | none => (codeAlt1 n rest).map (· + 1)
    else none

mutual

/-- The lazy star `(?:(?:\r?\n).+?)*?` followed by the tail: the tail is
tried first (fewest repetitions), then one more `newline .+?` repetition. -/
def codeReps (n : Nat) : Nat → List Char → Option Nat
  | 0, _ => none
  | fuel + 1, t =>
    match tailClose n t with
    | some r => some r
    | none =>
      match t with
      | '\r' :: '\n' :: rest => (codeRepChars n fuel rest).map (· + 2)
      | '\n' :: rest => (codeRepChars n fuel rest).map (· + 1)
      | _ => none

/-- The `.+?` inside a repetition, lazily extended. -/
def codeRepChars (n : Nat) : Nat → List Char → Option Nat
  | 0, _ => none
  | fuel + 1, t =>
    match t with
    | [] => none
    | c :: rest =>
      if isDotChar c then
        match codeReps n fuel rest with
        | some r => some (1 + r)
        | none => (codeRepChars n fuel rest).map (· + 1)
      else none

end

/-- The multi-line alternative `.*?(?:(?:\r?\n).+?)*?` of the content, with
the leading `.*?` lazily extended. -/
def codeAlt2 (n : Nat) : List Char → Option Nat
  | [] => codeReps n 1 []
  | c :: rest =>
    match codeReps n (rest.length + 2) (c :: rest) with
    | some r => some r
    | none => if isDotChar c then (codeAlt2 n rest).map (· + 1) else none

/-- The content group of `inlineCodePattern` for a closing run of `n`
backticks: full `.+?` alternative first, then the multi-line one. -/
def codeContent (n : Nat) (t : List Char) : Option Nat :=
  match codeAlt1 n t with
  | some r => some r
  | none => codeAlt2 n t

/-- The greedy opening run `(`+)` with give-back: `n` counts down from the
full run length. -/
def codeOpenRun : Nat → List Char → Option Nat
  | 0, _ => none
  | n + 1, s =>
    match codeContent (n + 1) (s.drop (n + 1)) with
    | some cl => some (n + 1 + cl)
    | none => codeOpenRun n s

/-- `inlineCodePattern` at the head of `s` (`prev` implements the
`(?<!`)` look-behind; the `(?!`)` look-ahead is part of `closeRunOk`). -/
def tryCode (prev : Option Char) (s : List Char) : Option (Nat × Unit) :=
  if prev == some '`' then none else
  let run := countWhile (fun c => c == '`') s
  (codeOpenRun run s).map (fun len => (len, ()))

/-! ## Other small patterns -/

/-- The task-list checkbox pattern `^\s*[\-\*\+]\s*\[x\]` (flag `i`) applied
to a line via `line.match(...)`: the length of `match[0]` when the line
starts with a checkbox marker. -/
def checkboxPrefixLen (line : List Char) : Option Nat :=
  let w0 := countWhile isWsChar line
  match line.drop w0 with
  | c :: r1 =>
    if c == '-' || c == '*' || c == '+' then
      let w1 := countWhile isWsChar r1
      match r1.drop w1 with
      | '[' :: x :: ']' :: _ =>
        if x == 'x' || x == 'X' then some (w0 + 1 + w1 + 3) else none
      | _ => none
    else none
  | [] => none

/-- The URI-scheme prefix pattern `/^[a-z\-][a-z\-]+:/i` used by
`createHref`: at least two letters or hyphens followed by a colon. -/
def looksLikeUriScheme (s : List Char) : Bool :=
  let k := countWhile
    (fun c => ('a' ≤ c && c ≤ 'z') || ('A' ≤ c && c ≤ 'Z') || c == '-') s
  2 ≤ k && (s.drop k).head? == some ':'

/-- The `angleBracketLinkRe` pattern `^<(.*)>$`: the whole string is
`<...>` with no line terminator inside (JS `.`). -/
def isAngleWrapped (s : List Char) : Bool :=
  match s with
  | '<' :: rest => rest.getLast? == some '>' && rest.dropLast.all isDotChar
  | _ => false

/-- `stripAngleBrackets` from `documentLinks.ts`: `link.replace(angleBracketLinkRe, '$1')`. -/
def stripAngleBrackets (s : List Char) : List Char :=
  if isAngleWrapped s then s.drop 1 |>.dropLast else s

/-! ## The `matchAll` driver -/

/-- The last character of the first `len` characters of `s` (the character
preceding the continuation position of a `matchAll` scan). -/
def lastConsumed (s : List Char) (len : Nat) : Option Char :=
  (s.take len).getLast?

/-- JS `text.matchAll(pattern)` for a matcher `tryFn`: repeatedly find the
next match from the current position; continue after each match (advancing
by one position on an empty match, as `matchAll` does).  Returns
`(index, length, payload)` triples. -/
def scanWith (tryFn : Option Char → List Char → Option (Nat × α)) :
    Nat → Option Char → List Char → Nat → List (Nat × Nat × α)
  | _, _, [], _ => []
  | 0, _, _, _ => []
  | fuel + 1, prev, c :: rest, idx =>
    match tryFn prev (c :: rest) with
    | some (len, a) =>
      let step := max len 1
      (idx, len, a) ::
        scanWith tryFn fuel (lastConsumed (c :: rest) step) ((c :: rest).drop step) (idx + step)
    | none => scanWith tryFn fuel (some c) rest (idx + 1)

/-- `(cs.drop start).take len`: the substring at `start` of length `len`. -/
def slice (cs : List Char) (start len : Nat) : List Char :=
  (cs.drop start).take len

/-- JS `String.prototype.trim`. -/
def trimChars (cs : List Char) : List Char :=
  ((cs.dropWhile isWsChar).reverse.dropWhile isWsChar).reverse

/-- JS `String.prototype.indexOf` for a sub-list (first occurrence). -/
def indexOfSub (hay needle : List Char) : Option Nat :=
  let rec go : List Char → Nat → Option Nat
    | h, i =>
      if needle.isPrefixOf h then some i
      else match h with
        | [] => none
        | _ :: rest => go rest (i + 1)
  go hay 0

/-! ## The workspace and URI-parsing collaborators -/

/-- Modelled from the spec: a parsed external URI as returned by
`vscode-uri`'s `URI.parse`; only the scheme and a remainder are retained. -/
structure ExtUri where
  scheme : String
  body : String
deriving DecidableEq, Repr

/-- A `URI.parse`-like function: the external URI parser is an external
collaborator, so it is a parameter of the embedding (`none` models a
thrown parse error). -/
abbrev UriParser := String → Option ExtUri

/-- Modelled from the spec: a `stat` result for one resource. -/
structure WsEntry where
  uri : Uri
  isDirectory : Bool
deriving DecidableEq, Repr

/-- Modelled from the spec: the `IWorkspace` collaborator: workspace folders,
`stat` results, openable Markdown documents and the containing-document
mapping for notebook-embedded documents. -/
structure Workspace where
  folders : List Uri
  entries : List WsEntry
  docs : List TextDoc
  containing : List (Uri × Uri)
deriving Repr

/-- Modelled from the spec: `workspace.stat(uri)`. -/
def Workspace.stat (ws : Workspace) (u : Uri) : Option WsEntry :=
  ws.entries.find? (fun e => e.uri == u)

/-- Modelled from the spec: `workspace.openMarkdownDocument(uri)`. -/
def Workspace.openMarkdownDocument (ws : Workspace) (u : Uri) : Option TextDoc :=
  ws.docs.find? (fun d => d.uri == u)

/-- Modelled from the spec: `workspace.getContainingDocument(uri)`. -/
def Workspace.getContainingDocument (ws : Workspace) (u : Uri) : Option Uri :=
  (ws.containing.find? (fun p => p.1 == u)).map (fun p => p.2)

/-- Hexadecimal digit value. -/
def hexVal (c : Char) : Option Nat :=
  let n := c.toNat
  if 48 ≤ n && n ≤ 57 then some (n - 48)
  else if 97 ≤ n && n ≤ 102 then some (n - 87)
  else if 65 ≤ n && n ≤ 70 then some (n - 55)
  else none

/-- Modelled from the spec: percent-decoding applied defensively (as
`tryDecodeUri` from `util/uri.ts` does with `decodeURI`): decode `%XX`
escapes, keeping URI-reserved characters escaped; when any escape is
malformed the input is returned unchanged. -/
def percentDecodeChars : Nat → List Char → Option (List Char)
  | _, [] => some []
  | 0, _ => none
  | fuel + 1, '%' :: a :: b :: rest =>
    (match hexVal a, hexVal b with
     | some ha, some hb =>
       let v := 16 * ha + hb
       let c := Char.ofNat v
       let isReserved := "#$&+,/:;=?@%".data.contains c
       (percentDecodeChars fuel rest).map (fun r =>
         if isReserved then '%' :: a :: b :: r else c :: r)
     | _, _ => none)
  | _, '%' :: _ => none
  | fuel + 1, c :: rest => (percentDecodeChars fuel rest).map (fun r => c :: r)

/-- Modelled from the spec: `tryDecodeUri` from `util/uri.ts`: decode, and on
failure return the text unchanged. -/
def tryDecodeUri (s : List Char) : List Char :=
  (percentDecodeChars (s.length + 1) s).getD s

/-- Modelled from the spec: `resolveInternalDocumentLink` from
`util/mdLinks.ts`: strip angle brackets, split off a `#fragment` suffix,
percent-decode defensively, and join against the source document's
directory unless the path is root-absolute (resolved against the source's
workspace folder) or empty (same-document link).  Returns the resolved
resource and the link fragment. -/
def resolveInternalDocumentLink (sourceUri : Uri) (linkText : List Char) (ws : Workspace) :
    Option (Uri × List Char) :=
  let cleaned := stripAngleBrackets linkText
  let (pathPart, fragment) := match cleaned.findIdx? (fun c => c == '#') with
    | some idx => (cleaned.take idx, cleaned.drop (idx + 1))
    | none => (cleaned, [])
  let path := tryDecodeUri pathPart
  if path.isEmpty then
    some (sourceUri, fragment)
  else if path.head? == some '/' then
    match ws.folders.find? (fun f =>
        f.scheme == sourceUri.scheme && f.authority == sourceUri.authority &&
          f.segs.isPrefixOf sourceUri.segs) with
    | none => none
    | some root => some (root.joinPath (String.mk (path.drop 1)), fragment)
  else
    some (sourceUri.dirname.joinPath (String.mk path), fragment)

/-! ## Link records (from `types/documentLink.ts`) -/

/-- `HrefKind`/`ExternalHref`/`InternalHref`/`ReferenceHref` from
`types/documentLink.ts`. -/
inductive Href where
  | external (uri : ExtUri)
  | internal (path : Uri) (fragment : List Char)
  | reference (ref : List Char)
deriving DecidableEq, Repr

/-- `MdLinkKind` from `types/documentLink.ts`. -/
inductive MdLinkKind where
  | link
  | autoLink
  | definition
deriving DecidableEq, Repr

/-- `MdLinkSource` from `types/documentLink.ts`. -/
structure MdLinkSource where
  hrefText : List Char
  resource : Uri
  range : Range
  targetRange : Range
  hrefRange : Range
  isAngleBracketLink : Bool
  hrefPathText : List Char
  hrefFragmentRange : Option Range
  titleRange : Option Range
deriving DecidableEq, Repr

/-- `MdLink`/`MdLinkDefinition` from `types/documentLink.ts` (a definition
additionally carries its `ref` name and range). -/
structure MdLink where
  kind : MdLinkKind
  href : Href
  source : MdLinkSource
  defRef : Option (List Char × Range) := none
deriving DecidableEq, Repr

/-- `createHref` from `documentLinks.ts`: texts with a URI-scheme prefix are
External (URI-parse failure gives `none`, logged and not thrown); other
texts resolve as internal document-relative paths. -/
def createHref (uriParse : UriParser) (sourceDocUri : Uri) (link : List Char)
    (ws : Workspace) : Option Href :=
  if looksLikeUriScheme link then
    match uriParse (String.mk (tryDecodeUri link)) with
    | some u => some (.external u)
    | none => none
  else
    match resolveInternalDocumentLink sourceDocUri link ws with
    | none => none
    | some (res, frag) => some (.internal res frag)

/-- `getFragmentRange` from `documentLinks.ts`. -/
def getFragmentRange (text : List Char) (start stop : Pos) : Option Range :=
  match text.findIdx? (fun c => c == '#') with
  | none => none
  | some index => some { start := translatePosition start 0 (Int.ofNat index + 1), stop := stop }

/-- `getLinkSourceFragmentInfo` from `documentLinks.ts`: the fragment range
and the href-path text (the text up to the character before the fragment
start, or the whole href). -/
def getLinkSourceFragmentInfo (document : TextDoc) (link : List Char)
    (linkStart linkEnd : Pos) : Option Range × List Char :=
  let fragmentRange := getFragmentRange link linkStart linkEnd
  (fragmentRange,
    document.getTextIn
      { start := linkStart,
        stop := match fragmentRange with
          | some fr => translatePosition fr.start 0 (-1)
          | none => linkEnd })

/-- `createMdLink` from `documentLinks.ts`. -/
def createMdLink (uriParse : UriParser) (document : TextDoc)
    (targetText preHrefText rawLink : List Char) (matchIndex : Nat)
    (fullMatch : List Char) (titleMatch : Option (List Char))
    (ws : Workspace) : Option MdLink :=
  let isAngleBracketLink := rawLink.head? == some '<'
  let link := stripAngleBrackets rawLink
  match createHref uriParse document.uri link ws with
  | none => none
  | some linkTarget =>
    let pre := targetText ++ preHrefText
    let linkStartOffset := matchIndex
    let linkStart := document.positionAt linkStartOffset
    let linkEnd := document.positionAt (linkStartOffset + fullMatch.length)
    let targetStart := document.positionAt (linkStartOffset + targetText.length)
    let targetRange : Range := { start := targetStart, stop := linkEnd }
    let hrefStartOffset := linkStartOffset + pre.length + (if isAngleBracketLink then 1 else 0)
    let hrefStart := document.positionAt hrefStartOffset
    let hrefEnd := document.positionAt (hrefStartOffset + link.length)
    let hrefRange : Range := { start := hrefStart, stop := hrefEnd }
    let titleRange : Option Range := match titleMatch with
      | none => none
      | some t =>
        match indexOfSub fullMatch t with
        | none => none
        | some i =>
          some { start := document.positionAt (linkStartOffset + i),
                 stop := document.positionAt (linkStartOffset + i + t.length) }
    let fragInfo := getLinkSourceFragmentInfo document link hrefStart hrefEnd
    some
      { kind := .link
        href := linkTarget
        source :=
          { hrefText := link
            resource := document.uri
            range := { start := linkStart, stop := linkEnd }
            targetRange := targetRange
            hrefRange := hrefRange
            isAngleBracketLink := isAngleBracketLink
            hrefFragmentRange := fragInfo.1
            hrefPathText := fragInfo.2
            titleRange := titleRange } }

/-! ## Tokens and no-link ranges -/

/-- A block token from the external tokenizer (`IMdParser.tokenize`): a type
tag and, for block tokens, the `[startLine, endLine)` map. -/
structure Token where
  type : String
  map : Option (Int × Int)
deriving DecidableEq, Repr

/-- `NoLinkRanges` from `documentLinks.ts`: block-level line spans in which
links are suppressed, plus inline code-span ranges.  (The source registers
each inline range in a by-line map; `contains` below folds the by-line
lookup and the range check together, which is extensionally the same.) -/
structure NoLinkRanges where
  multiline : List (String × Int × Int)
  inline : List Range
deriving DecidableEq, Repr

/-- `NoLinkRanges.compute`: the `code_block`/`fence`/`html_block` tokens with
maps, and every match of `inlineCodePattern` over the document text. -/
def NoLinkRanges.compute (tokens : List Token) (document : TextDoc) : NoLinkRanges :=
  { multiline := tokens.filterMap (fun t =>
      if t.type == "code_block" || t.type == "fence" || t.type == "html_block" then
        t.map.map (fun m => (t.type, m))
      else none)
    inline := (scanWith tryCode (document.text.length + 1) none document.text 0).map (fun hit =>
      { start := document.positionAt hit.1, stop := document.positionAt (hit.1 + hit.2.1) }) }

/-- `NoLinkRanges.contains(position, excludeType)`. -/
def NoLinkRanges.contains (nlr : NoLinkRanges) (position : Pos) (excludeType : String := "") : Bool :=
  nlr.multiline.any (fun t =>
      t.1 != excludeType && t.2.1 ≤ position.line && position.line < t.2.2) ||
    nlr.inline.any (fun r =>
      r.start.line ≤ position.line && position.line ≤ r.stop.line && rangeContainsPos r position)

/-- `NoLinkRanges.concatInline`. -/
def NoLinkRanges.concatInline (nlr : NoLinkRanges) (ranges : List Range) : NoLinkRanges :=
  { nlr with inline := nlr.inline ++ ranges }

/-! ## The link-computer passes (`MdLinkComputer` from `documentLinks.ts`) -/

/-- The `/\![\[\(]/` test used before recursing into inline-link text. -/
def hasImageOpen : List Char → Bool
  | '!' :: '[' :: _ => true
  | '!' :: '(' :: _ => true
  | _ :: rest => hasImageOpen rest
  | [] => false

/-- The reference link record built at the end of
`MdLinkComputer.#getReferenceLinksInText`. -/
def mkReferenceLink (document : TextDoc) (reference : List Char)
    (linkStart : Pos) (matchLen : Nat) (hrefStart hrefEnd : Pos) : MdLink :=
  { kind := .link
    href := .reference reference
    source :=
      { isAngleBracketLink := false
        hrefText := reference
        hrefPathText := reference
        resource := document.uri
        range := { start := linkStart, stop := translatePosition linkStart 0 (Int.ofNat matchLen) }
        targetRange :=
          { start := translatePosition hrefStart 0 (-1)
            stop := translatePosition hrefEnd 0 1 }
        hrefRange := { start := hrefStart, stop := hrefEnd }
        hrefFragmentRange := none
        titleRange := none } }

/-- `MdLinkComputer.#getReferenceLinksInText`: scan `text` (which sits at
`startingOffset` inside the document) for reference links.  The recursion
into the text portion of `[text][ref]` constructs is bounded by a fuel
argument (the caller supplies the text length, which bounds the nesting
depth, so the `fuel = 0` case is unreachable). -/
def getReferenceLinksInText (document : TextDoc) :
    Nat → List Char → Nat → NoLinkRanges → List MdLink
  | 0, _, _, _ => []
  | fuel + 1, text, startingOffset, noLinkRanges =>
    (scanWith tryRef (text.length + 1) none text 0).flatMap (fun hit =>
      let mIdx := hit.1
      let mLen := hit.2.1
      let linkStartOffset := startingOffset + mIdx
      let linkStart := document.positionAt linkStartOffset
      if noLinkRanges.contains linkStart then [] else
      match hit.2.2 with
      | .textRef bang textLen wsLen refLen =>
        let bangLen : Nat := if bang then 1 else 0
        let textGroup := slice text (mIdx + bangLen + 1) textLen
        if refLen == 0 then
          -- `reference === ''`: the `[ref][]` shape
          let reference := trimChars textGroup
          if reference.isEmpty then [] else
          let offset := linkStartOffset + 1
          let hrefStart := document.positionAt offset
          let hrefEnd := document.positionAt (offset + reference.length)
          [mkReferenceLink document reference linkStart mLen hrefStart hrefEnd]
        else
          -- `[text][ref]`
          if textGroup.isEmpty && !bang then
            -- empty links are not valid (only `![][ref]` is kept)
            []
          else
            let innerLinks :=
              if !bang then
                getReferenceLinksInText document fuel textGroup (linkStartOffset + 1) noLinkRanges
              else []
            let pre := RefAlt.preLen (.textRef bang textLen wsLen refLen)
            let offset := linkStartOffset + pre
            let hrefStart := document.positionAt offset
            let hrefEnd := document.positionAt (offset + refLen)
            let reference := slice text (mIdx + pre) refLen
            innerLinks ++
              [mkReferenceLink document reference linkStart mLen hrefStart hrefEnd]
      | .shorthand w0 contentLen _ =>
        let reference := trimChars (slice text (mIdx + 1 + w0) contentLen)
        if reference.isEmpty then [] else
        let offset := linkStartOffset + 1
        let hrefStart := document.positionAt offset
        let line := document.getLine hrefStart.line
        -- a shorthand at column 0 followed by `:` looks like a link definition
        if linkStart.character == 0 && (line.drop mLen).head? == some ':' then [] else
        -- a shorthand inside a leading task-list checkbox marker
        let skipAsCheckbox := match checkboxPrefixLen line with
          | some cbLen => decide (hrefStart.character ≤ Int.ofNat cbLen)
          | none => false
        if skipAsCheckbox then [] else
        let hrefEnd := document.positionAt (offset + reference.length)
        [mkReferenceLink document reference linkStart mLen hrefStart hrefEnd])

/-- `MdLinkComputer.#getReferenceLinks`: scan the whole document text. -/
def getReferenceLinks (document : TextDoc) (noLinkRanges : NoLinkRanges) : List MdLink :=
  getReferenceLinksInText document (document.text.length + 1) document.text 0 noLinkRanges

/-- `MdLinkComputer.#getInlineLinks`: scan for `[text](target)` links; for a
link whose text contains an image opener, recurse into the text for inner
image links (yielded unconditionally) and nested reference links. -/
def getInlineLinks (uriParse : UriParser) (document : TextDoc)
    (noLinkRanges : NoLinkRanges) (ws : Workspace) : List MdLink :=
  let text := document.text
  (scanWith tryLink (text.length + 1) none text 0).flatMap (fun hit =>
    let idx := hit.1
    let len := hit.2.1
    let m := hit.2.2
    let linkTextIncludingBrackets := slice text idx m.g1
    let preHref := slice text (idx + m.g1) m.g2
    let rawLink := slice text (idx + m.g1 + m.g2) m.g3
    let fullMatch := slice text idx len
    match createMdLink uriParse document linkTextIncludingBrackets preHref rawLink idx
        fullMatch m.title ws with
    | none => []
    | some matchLinkData =>
      if noLinkRanges.contains matchLinkData.source.hrefRange.start then [] else
      matchLinkData ::
        (if hasImageOpen linkTextIncludingBrackets then
          let linkText := linkTextIncludingBrackets.drop 1 |>.dropLast
          let startOffset := idx + 1
          ((scanWith tryLink (linkText.length + 1) none linkText 0).flatMap (fun innerHit =>
            let iIdx := innerHit.1
            let iLen := innerHit.2.1
            let im := innerHit.2.2
            match createMdLink uriParse document (slice linkText iIdx im.g1)
                (slice linkText (iIdx + im.g1) im.g2)
                (slice linkText (iIdx + im.g1 + im.g2) im.g3)
                (startOffset + iIdx) (slice linkText iIdx iLen) im.title ws with
            | some innerData => [innerData]
            | none => [])) ++
            getReferenceLinksInText document (linkText.length + 1) linkText startOffset
              noLinkRanges
        else []))

/-- `MdLinkComputer.#getAutoLinks`: scan for `<scheme:...>` autolinks; only
External hrefs are kept. -/
def getAutoLinks (uriParse : UriParser) (document : TextDoc)
    (noLinkRanges : NoLinkRanges) (ws : Workspace) : List MdLink :=
  let text := document.text
  (scanWith tryAuto (text.length + 1) none text 0).flatMap (fun hit =>
    let idx := hit.1
    let len := hit.2.1
    let capLen := hit.2.2
    let linkStart := document.positionAt idx
    if noLinkRanges.contains linkStart then [] else
    let link := slice text (idx + 1) capLen
    match createHref uriParse document.uri link ws with
    | some (.external u) =>
      let linkEnd := translatePosition linkStart 0 (Int.ofNat len)
      let hrefStart := translatePosition linkStart 0 1
      let hrefEnd := translatePosition hrefStart 0 (Int.ofNat link.length)
      let hrefRange : Range := { start := hrefStart, stop := hrefEnd }
      let fragInfo := getLinkSourceFragmentInfo document link hrefStart hrefEnd
      [{ kind := .autoLink
         href := .external u
         source :=
           { isAngleBracketLink := false
             hrefText := link
             resource := document.uri
             targetRange := hrefRange
             hrefRange := hrefRange
             range := { start := linkStart, stop := linkEnd }
             hrefFragmentRange := fragInfo.1
             hrefPathText := fragInfo.2
             titleRange := none } }]
    | _ => [])

/-- `MdLinkComputer.#getLinkDefinitions`: scan for `[ref]: target` link
definitions. -/
def getLinkDefinitions (uriParse : UriParser) (document : TextDoc)
    (noLinkRanges : NoLinkRanges) (ws : Workspace) : List MdLink :=
  let text := document.text
  (scanWith tryDef (text.length + 1) none text 0).flatMap (fun hit =>
    let idx := hit.1
    let m := hit.2.2
    let linkStart := document.positionAt idx
    if noLinkRanges.contains linkStart then [] else
    let preLen := m.w0 + m.bodyLen + m.w1 + 3
    let reference := slice text (idx + m.w0 + 1) m.bodyLen
    let rawLinkText := trimChars (slice text (idx + preLen) m.tgtLen)
    let isAngleBracketLink := isAngleWrapped rawLinkText
    let linkText := stripAngleBrackets rawLinkText
    match createHref uriParse document.uri linkText ws with
    | none => []
    | some target =>
      let hrefStart := translatePosition linkStart 0
        (Int.ofNat (preLen + (if isAngleBracketLink then 1 else 0)))
      let hrefEnd := translatePosition hrefStart 0 (Int.ofNat linkText.length)
      let hrefRange : Range := { start := hrefStart, stop := hrefEnd }
      let refStart := translatePosition linkStart 0 1
      let refRange : Range :=
        { start := refStart, stop := translatePosition refStart 0 (Int.ofNat reference.length) }
      let line := document.getLine linkStart.line
      let linkEnd := translatePosition linkStart 0 (Int.ofNat line.length)
      let fragInfo := getLinkSourceFragmentInfo document rawLinkText hrefStart hrefEnd
      [{ kind := .definition
         href := target
         source :=
           { isAngleBracketLink := isAngleBracketLink
             hrefText := linkText
             resource := document.uri
             range := { start := linkStart, stop := linkEnd }
             targetRange := hrefRange
             hrefRange := hrefRange
             hrefFragmentRange := fragInfo.1
             hrefPathText := fragInfo.2
             titleRange := none }
         defRef := some (reference, refRange) }])

/-! ## The HTML pass -/

/-- Modelled from the spec: a DOM-like element as produced by the external
`node-html-parser` collaborator: tag name, the offset of the element in the
document, its path-bearing attributes as (name, offset of the value from
the element start, value), and child elements.  (Comment and text nodes
carry no elements and are omitted by the parser model.) -/
inductive HtmlNode where
  | mk (tagName : String) (start : Nat) (attrs : List (String × Nat × List Char))
      (children : List HtmlNode)

/-- Modelled from the spec: `htmlTagPathAttrs` from `util/html.ts`: the
element tags known to carry path-bearing attributes. -/
def htmlTagPathAttrs : List (String × List String) :=
  [("IMG", ["src"]), ("VIDEO", ["src", "poster"]), ("SOURCE", ["src"]), ("A", ["href"])]

/-- The `/<\w/` pre-check of `MdLinkComputer.#getHtmlLinks`. -/
def hasHtmlOpen : Nat → List Char → Bool
  | _, [] => false
  | 0, _ => false
  | fuel + 1, '<' :: c :: rest => if isWordChar c then true else hasHtmlOpen fuel (c :: rest)
  | fuel + 1, _ :: rest => hasHtmlOpen fuel rest

/-- `MdLinkComputer.#getHtmlLinksFromNode`: links from one element's
path-bearing attributes (positions checked against the no-link ranges with
`html_block` excluded), then recursively from its children. -/
def getHtmlLinksFromNode (uriParse : UriParser) (document : TextDoc)
    (noLinkRanges : NoLinkRanges) (ws : Workspace) : HtmlNode → List MdLink
  | .mk tagName start attrs children =>
    let own : List MdLink :=
      match (htmlTagPathAttrs.find? (fun p => p.1 == tagName)).map (fun p => p.2) with
      | none => []
      | some attrNames =>
        attrNames.flatMap (fun an =>
          match attrs.find? (fun a => a.1 == an) with
          | none => []
          | some (_, off, link) =>
            match createHref uriParse document.uri link ws with
            | none => []
            | some linkTarget =>
              let linkStart := document.positionAt (start + off)
              if noLinkRanges.contains linkStart "html_block" then [] else
              let linkEnd := translatePosition linkStart 0 (Int.ofNat link.length)
              let hrefRange : Range := { start := linkStart, stop := linkEnd }
              let fragInfo := getLinkSourceFragmentInfo document link linkStart linkEnd
              [{ kind := .link
                 href := linkTarget
                 source :=
                   { isAngleBracketLink := false
                     hrefText := link
                     resource := document.uri
                     targetRange := hrefRange
                     hrefRange := hrefRange
                     range := hrefRange
                     hrefFragmentRange := fragInfo.1
                     hrefPathText := fragInfo.2
                     titleRange := none } }])
    own ++ children.attach.flatMap (fun c =>
      getHtmlLinksFromNode uriParse document noLinkRanges ws c.1)
termination_by n => sizeOf n
decreasing_by
  have h1 := List.sizeOf_lt_of_mem c.2
  simp only [HtmlNode.mk.sizeOf_spec]
  omega

/-- `MdLinkComputer.#getHtmlLinks`: only attempted when the text contains an
HTML-open-tag-like substring; the tree parse is the external collaborator
`htmlParse` (a parse failure is modelled by an empty forest). -/
def getHtmlLinks (uriParse : UriParser) (htmlParse : List Char → List HtmlNode)
    (document : TextDoc) (noLinkRanges : NoLinkRanges) (ws : Workspace) : List MdLink :=
  if !hasHtmlOpen (document.text.length + 1) document.text then []
  else (htmlParse document.text).flatMap
    (getHtmlLinksFromNode uriParse document noLinkRanges ws)

/-- Modelled from the spec: a minimal stand-in for `vscode-uri`'s `URI.parse`,
used to instantiate the external-parser parameter in concrete witnesses:
accepts `scheme:rest` when the scheme matches `^\w[\w+.-]*$` and fails
otherwise (vscode-uri raises on illegal scheme characters). -/
def modelUriParse : UriParser := fun s =>
  let cs := s.data
  match cs.findIdx? (fun c => c == ':') with
  | none => none
  | some k =>
    let scheme := cs.take k
    if ((scheme.head?.map isWordChar).getD false
        && (scheme.drop 1).all (fun c => isWordChar c || c == '+' || c == '.' || c == '-')) then
      some { scheme := String.mk scheme, body := String.mk (cs.drop (k + 1)) }
    else none

/-- `MdLinkComputer.getAllLinks`: tokenize (the token stream is the external
collaborator's output), compute the no-link ranges, then run the passes in
order, feeding the inline links' ranges into the exclusion index used by
the reference pass. -/
def getAllLinks (uriParse : UriParser) (tokens : List Token)
    (htmlParse : List Char → List HtmlNode) (document : TextDoc)
    (ws : Workspace) : List MdLink :=
  let noLinkRanges := NoLinkRanges.compute tokens document
  let inlineLinks := getInlineLinks uriParse document noLinkRanges ws
  inlineLinks ++
    getReferenceLinks document
      (noLinkRanges.concatInline (inlineLinks.map (fun x => x.source.range))) ++
    getLinkDefinitions uriParse document noLinkRanges ws ++
    getAutoLinks uriParse document noLinkRanges ws ++
    getHtmlLinks uriParse htmlParse document noLinkRanges ws

/-! ## Concrete instantiations used by examples and witnesses -/

/-- A one-folder workspace with no stat entries, used for link-scanning
examples (the scanner itself never consults `stat`). -/
def sampleWorkspace : Workspace :=
  { folders := [fileUri ["workspace"]], entries := [], docs := [], containing := [] }

/-- A Markdown document at `/workspace/test.md` with the given text. -/
def mdDoc (s : String) : TextDoc :=
  { uri := fileUri ["workspace", "test.md"], version := 0, text := s.data }

/-- The external HTML parser returning an empty forest (what
`node-html-parser` yields on the texts used in the concrete examples
below, which contain no elements with path-bearing attributes). -/
def emptyHtmlParse : List Char → List HtmlNode := fun _ => []

/-- `getAllLinks` over a plain text with no block tokens, with the model
URI parser and the sample workspace. -/
def allLinksOf (s : String) : List MdLink :=
  getAllLinks modelUriParse [] emptyHtmlParse (mdDoc s) sampleWorkspace


/-! ## Selection ranges (`MdSelectionRangeProvider` from `smartSelect.ts`) -/

/-- An LSP selection range: a range with an optional parent chain. -/
inductive SelRange where
  | mk (range : Range) (parent : Option SelRange)

/-- The range of a selection-range node. -/
def SelRange.range : SelRange → Range
  | .mk r _ => r

/-- `makeSelectionRange` from `smartSelect.ts`: collapse a new range equal
to its parent's range onto the parent. -/
def makeSelectionRange (range : Range) (parent : Option SelRange) : SelRange :=
  match parent with
  | some p => if areRangesEqual p.range range then p else .mk range parent
  | none => .mk range none

/-- The chain of ranges of a selection range, innermost first. -/
def chainRanges : SelRange → List Range
  | .mk r none => [r]
  | .mk r (some p) => r :: chainRanges p

/-- `x ?? y` on options. -/
def optOr (a b : Option α) : Option α :=
  match a with
  | some x => some x
  | none => b

/-- Modelled from the spec: a table-of-contents entry as produced by the
external `TableOfContents` collaborator: the assigned (disambiguated) slug,
the header's line, the section range (header line through the end of the
section), the header-line range and the header-text range. -/
structure TocEntry where
  uri : Uri
  slug : String
  line : Int
  sectionRange : Range
  headerRange : Range
  headerTextRange : Range
deriving DecidableEq, Repr

/-- `isEmptyOrWhitespace` from `util/string.ts`. -/
def isEmptyOrWhitespace (cs : List Char) : Bool :=
  cs.all isWsChar

/-- `isList` from `smartSelect.ts`. -/
def isListType (t : String) : Bool :=
  t == "ordered_list_open" || t == "list_item_open" || t == "bullet_list_open"

/-- `isBlockElement` from `smartSelect.ts`. -/
def isBlockElement (t : String) : Bool :=
  !(t == "list_item_close" || t == "paragraph_close" || t == "bullet_list_close" ||
    t == "inline" || t == "heading_close" || t == "heading_open")

/-- Stable insertion of a token by descending line span (the JS
`Array.prototype.sort` comparator `(t2span - t1span)` is a stable sort by
descending span). -/
def insertBySpanDesc (x : String × Int × Int) :
    List (String × Int × Int) → List (String × Int × Int)
  | [] => [x]
  | y :: rest =>
    if y.2.2 - y.2.1 < x.2.2 - x.2.1 then x :: y :: rest else y :: insertBySpanDesc x rest

/-- Stable sort by descending span. -/
def sortBySpanDesc (l : List (String × Int × Int)) : List (String × Int × Int) :=
  l.foldl (fun acc x => insertBySpanDesc x acc) []

/-- `getBlockTokensForPosition` from `smartSelect.ts` (tokens carried as
`(type, startLine, endLine)` triples of the tokens that have a map). -/
def getBlockTokensForPosition (tokens : List Token) (position : Pos)
    (parent : Option SelRange) : List (String × Int × Int) :=
  let enclosing := tokens.filterMap (fun t =>
    match t.map with
    | none => none
    | some (m0, m1) =>
      if decide (m0 ≤ position.line) && decide (position.line < m1) &&
          (match parent with
           | none => true
           | some p => decide (p.range.start.line ≤ m0) && decide (m1 ≤ p.range.stop.line + 1)) &&
          isBlockElement t.type then
        some (t.type, m0, m1)
      else none)
  if enclosing.isEmpty then [] else sortBySpanDesc enclosing

/-- `createFencedRange` from `smartSelect.ts`. -/
def createFencedRange (tm : String × Int × Int) (cursorLine : Int) (document : TextDoc)
    (parent : Option SelRange) : SelRange :=
  let startLine := tm.2.1
  let endLine := tm.2.2 - 1
  let onFenceLine := cursorLine == startLine || cursorLine == endLine
  let fenceRange : Range :=
    ⟨⟨startLine, 0⟩, ⟨endLine, Int.ofNat (document.getLine endLine).length⟩⟩
  let contentRange : Option Range :=
    if decide (2 < endLine - startLine) && !onFenceLine then
      some ⟨⟨startLine + 1, 0⟩, ⟨endLine - 1, Int.ofNat (document.getLine (endLine - 1)).length⟩⟩
    else none
  match contentRange with
  | some cr => makeSelectionRange cr (some (makeSelectionRange fenceRange parent))
  | none =>
    match parent with
    | some p => if areRangesEqual p.range fenceRange then p else makeSelectionRange fenceRange parent
    | none => makeSelectionRange fenceRange none

/-- `createBlockRange` from `smartSelect.ts`. -/
def createBlockRange (tm : String × Int × Int) (document : TextDoc) (cursorLine : Int)
    (parent : Option SelRange) : SelRange :=
  if tm.1 == "fence" then createFencedRange tm cursorLine document parent
  else
    let m0 := tm.2.1
    let m1 := tm.2.2
    let startLine0 := if isEmptyOrWhitespace (document.getLine m0) then m0 + 1 else m0
    let endLine0 := if startLine0 == m1 then m1 else m1 - 1
    let se : Int × Int :=
      if tm.1 == "paragraph_open" && m1 - m0 == 2 then (cursorLine, cursorLine)
      else if isListType tm.1 && isEmptyOrWhitespace (document.getLine endLine0) then
        (startLine0, endLine0 - 1)
      else (startLine0, endLine0)
    let range : Range :=
      ⟨⟨se.1, 0⟩, ⟨se.2, Int.ofNat (document.getLine se.2).length⟩⟩
    match parent with
    | some p =>
      if rangeContains p.range range && !areRangesEqual p.range range then
        makeSelectionRange range parent
      else if areRangesEqual p.range range then p
      else makeSelectionRange range none
    | none => makeSelectionRange range none

/-- `MdSelectionRangeProvider.#getBlockSelectionRange`: fold the sorted
enclosing block tokens outside-in (when a header parent exists, the first
token is not consumed separately). -/
def getBlockSelectionRange (tokens : List Token) (document : TextDoc) (position : Pos)
    (parent : Option SelRange) : Option SelRange :=
  let blockTokens := getBlockTokensForPosition tokens position parent
  if blockTokens.isEmpty then none
  else
    match parent with
    | some p =>
      some (blockTokens.foldl (fun cur t => createBlockRange t document position.line (some cur)) p)
    | none =>
      match blockTokens with
      | [] => none
      | t0 :: rest =>
        some (rest.foldl (fun cur t => createBlockRange t document position.line (some cur))
          (createBlockRange t0 document position.line none))

/-- Stable insertion by ascending header line (the comparator
`(h1.line - pos) - (h2.line - pos)`). -/
def insertByLineAsc (x : TocEntry) : List TocEntry → List TocEntry
  | [] => [x]
  | y :: rest => if x.line < y.line then x :: y :: rest else y :: insertByLineAsc x rest

/-- `getHeadersForPosition` from `smartSelect.ts`. -/
def getHeadersForPosition (toc : List TocEntry) (position : Pos) : List TocEntry × Bool :=
  let enclosing := toc.filter (fun h =>
    decide (h.sectionRange.start.line ≤ position.line) &&
      decide (position.line ≤ h.sectionRange.stop.line))
  let sorted := enclosing.foldl (fun acc x => insertByLineAsc x acc) []
  let onThisLine := (toc.find? (fun h => h.line == position.line)).isSome
  (sorted, onThisLine)

/-- `getFirstChildHeader` from `smartSelect.ts`. -/
def getFirstChildHeader (document : TextDoc) (header : TocEntry) (toc : List TocEntry) :
    Option Pos :=
  let children := (toc.filter (fun t =>
    rangeContains header.sectionRange t.sectionRange &&
      decide (header.sectionRange.start.line < t.sectionRange.start.line))).foldl
      (fun acc x => insertByLineAsc x acc) []
  match children.head? with
  | none => none
  | some c =>
    let childRange := c.sectionRange.start
    let lineText := document.getLine (childRange.line - 1)
    some (translatePosition childRange (-1) (Int.ofNat lineText.length))

/-- `createHeaderRange` from `smartSelect.ts`. -/
def createHeaderRange (header : TocEntry) (isClosestHeaderToPosition : Bool)
    (onHeaderLine : Bool) (parent : Option SelRange) (startOfChildRange : Option Pos) :
    SelRange :=
  let range := header.sectionRange
  let contentRange : Range := ⟨translatePosition range.start 1 0, range.stop⟩
  match onHeaderLine && isClosestHeaderToPosition, isClosestHeaderToPosition,
      startOfChildRange with
  | true, _, some soc =>
    makeSelectionRange (modifyRange range none (some soc)) (some (makeSelectionRange range parent))
  | true, _, none => makeSelectionRange range parent
  | false, true, some soc =>
    makeSelectionRange (modifyRange contentRange none (some soc))
      (some (makeSelectionRange contentRange (some (makeSelectionRange range parent))))
  | false, _, _ => makeSelectionRange contentRange (some (makeSelectionRange range parent))

/-- The header loop of `MdSelectionRangeProvider.#getHeaderSelectionRange`. -/
def headerLoop (document : TextDoc) (toc : List TocEntry) (onThisLine : Bool) :
    List TocEntry → Option SelRange → Option SelRange
  | [], cur => cur
  | h :: rest, cur =>
    headerLoop document toc onThisLine rest
      (some (createHeaderRange h rest.isEmpty onThisLine cur (getFirstChildHeader document h toc)))

/-- `MdSelectionRangeProvider.#getHeaderSelectionRange` (the table of
contents is the external collaborator's output). -/
def getHeaderSelectionRange (toc : List TocEntry) (document : TextDoc) (position : Pos) :
    Option SelRange :=
  let hp := getHeadersForPosition toc position
  headerLoop document toc hp.2 hp.1 none

/-! ### The bold/italic/inline-code regular expressions of `smartSelect.ts` -/

/-- Not a `*`. -/
def nonStarChar (c : Char) : Bool := !(c == '*')

/-- `[^*]+\*\*` at the head of `s`: the run is necessarily maximal (a
shorter run leaves a non-`*` where the closing `\*\*` must start). -/
def boldClose (cs : List Char) : Option Nat :=
  let k := countWhile nonStarChar cs
  if k == 0 then none
  else if (cs.drop k).head? == some '*' && (cs.drop (k + 1)).head? == some '*' then some (k + 2)
  else none

/-- `[^*]+\*?[^*]+\*\*` with the JS give-back on the first run (first
parameter: current candidate length, tried longest first) and the greedy
`\*?`. -/
def boldT2 : Nat → List Char → Option Nat
  | 0, _ => none
  | l + 1, cs =>
    let rest := cs.drop (l + 1)
    let viaStar : Option Nat :=
      if rest.head? == some '*' then (boldClose (rest.drop 1)).map (fun t => l + 2 + t)
      else none
    match viaStar with
    | some r => some r
    | none =>
      match boldClose rest with
      | some t => some (l + 1 + t)
      | none => boldT2 l cs

/-- `[^*]+\*?[^*]+\*?[^*]+\*\*`: the content of `boldPattern` plus its
closing `\*\*`, with give-back on the first run. -/
def boldT1 : Nat → List Char → Option Nat
  | 0, _ => none
  | l + 1, cs =>
    let rest := cs.drop (l + 1)
    let viaStar : Option Nat :=
      if rest.head? == some '*' then
        (boldT2 (countWhile nonStarChar (rest.drop 1)) (rest.drop 1)).map (fun t => l + 2 + t)
      else none
    match viaStar with
    | some r => some r
    | none =>
      match boldT2 (countWhile nonStarChar rest) rest with
      | some t => some (l + 1 + t)
      | none => boldT1 l cs

/-- The bold pattern `\*\*([^*]+\*?[^*]+\*?[^*]+)\*\*` at the head of `s`. -/
def tryBoldAt (cs : List Char) : Option Nat :=
  match cs with
  | '*' :: '*' :: rest => (boldT1 (countWhile nonStarChar rest) rest).map (fun t => t + 2)
  | _ => none

/-- One `\*\*[^*]*\*\*` block of the italic pattern. -/
def italStarBlock (cs : List Char) : Option Nat :=
  match cs with
  | '*' :: '*' :: r =>
    let k := countWhile nonStarChar r
    if (r.drop k).head? == some '*' && (r.drop (k + 1)).head? == some '*' then some (k + 4)
    else none
  | _ => none

/-- `[^*]+\*` closing the italic group (the run is necessarily maximal);
the continuation receives the consumed length. -/
def italG3K (kont : Nat → Option α) (cs : List Char) : Option α :=
  let k := countWhile nonStarChar cs
  if k == 0 then none
  else if (cs.drop k).head? == some '*' then kont (k + 1)
  else none

/-- `(?:\*\*[^*]*\*\*)*[^*]+\*` in continuation-passing style: more blocks
are tried first (greedy `*`), falling back to closing directly. -/
def italLoopK : (Nat → Option α) → Nat → List Char → Option α
  | _, 0, _ => none
  | kont, fuel + 1, cs =>
    match italStarBlock cs with
    | some b =>
      match italLoopK (fun t => kont (b + t)) fuel (cs.drop b) with
      | some res => some res
      | none => italG3K kont cs
    | none => italG3K kont cs

/-- `[^*]+(?:\*\*[^*]*\*\*)*[^*]+\*` with give-back on the first run. -/
def italG2K : (Nat → Option α) → Nat → List Char → Option α
  | _, 0, _ => none
  | kont, l + 1, cs =>
    match italLoopK (fun t => kont (l + 1 + t)) ((cs.drop (l + 1)).length + 1) (cs.drop (l + 1)) with
    | some res => some res
    | none => italG2K kont l cs

/-- The italic group `(\*([^*]+)(?:\*\*[^*]*\*\*)*([^*]+)\*)` at the head
of `s`, in continuation-passing style (the continuation sees the group's
length and performs the pattern's remaining checks). -/
def italGroup1K (kont : Nat → Option α) (cs : List Char) : Option α :=
  match cs with
  | '*' :: r => italG2K (fun t => kont (t + 1)) (countWhile nonStarChar r) r
  | _ => none

/-- The first italic pattern
`(?:[^*]+)(\*([^*]+)(?:\*\*[^*]*\*\*)*([^*]+)\*)(?:[^*]+)` at the head of
`s`: returns (full length, group-1 offset, group-1 length). -/
def tryItalic1 (cs : List Char) : Option (Nat × Nat × Nat) :=
  let k0 := countWhile nonStarChar cs
  if k0 == 0 then none
  else
    italGroup1K (fun g1len =>
      let s := countWhile nonStarChar (cs.drop (k0 + g1len))
      if s == 0 then none else some (k0 + g1len + s, k0, g1len)) (cs.drop k0)

/-- The anchored italic pattern
`^(?:[^*]*)(\*([^*]+)(?:\*\*[^*]*\*\*)*([^*]+)\*)(?:[^*]*)$` against the
whole of `s`: returns (group-1 offset, group-1 length). -/
def tryItalic2 (cs : List Char) : Option (Nat × Nat) :=
  let k0 := countWhile nonStarChar cs
  italGroup1K (fun g1len =>
    let rest := cs.drop (k0 + g1len)
    if countWhile nonStarChar rest == rest.length then some (k0, g1len) else none) (cs.drop k0)

/-- The inline-code pattern `\x60[^\x60]*\x60` at the head of `s`. -/
def tryCodeSpanAt (cs : List Char) : Option Nat :=
  match cs with
  | '`' :: r =>
    let k := countWhile (fun c => !(c == '`')) r
    if (r.drop k).head? == some '`' then some (k + 2) else none
  | _ => none

/-- `createBoldRange` from `smartSelect.ts`.  Matches are filtered by
`lineText.indexOf(match[0])` — the first occurrence of the matched text,
as in the source. -/
def createBoldRange (lineText : List Char) (cursorChar : Int) (cursorLine : Int)
    (parent : Option SelRange) : Option SelRange :=
  let ms := (scanWith (fun _ s => (tryBoldAt s).map (fun L => (L, ())))
      (lineText.length + 1) none lineText 0).filter (fun hit =>
    match indexOfSub lineText (slice lineText hit.1 hit.2.1) with
    | some i0 =>
      decide (Int.ofNat i0 ≤ cursorChar) && decide (cursorChar ≤ Int.ofNat (i0 + hit.2.1))
    | none => false)
  match ms with
  | [] => none
  | hit :: _ =>
    let bold := slice lineText hit.1 hit.2.1
    let startIndex := (indexOfSub lineText bold).getD 0
    let len := bold.length
    let cursorOnStars := cursorChar == Int.ofNat startIndex ||
      cursorChar == Int.ofNat startIndex + 1 ||
      cursorChar == Int.ofNat (startIndex + len) ||
      cursorChar == Int.ofNat (startIndex + len) - 1
    let contentAndStars := makeSelectionRange
      ⟨⟨cursorLine, Int.ofNat startIndex⟩, ⟨cursorLine, Int.ofNat (startIndex + len)⟩⟩ parent
    let content := makeSelectionRange
      ⟨⟨cursorLine, Int.ofNat (startIndex + 2)⟩, ⟨cursorLine, Int.ofNat (startIndex + len) - 2⟩⟩
      (some contentAndStars)
    some (if cursorOnStars then contentAndStars else content)

/-- `createOtherInlineRange` from `smartSelect.ts` (italic or inline
code). -/
def createOtherInlineRange (lineText : List Char) (cursorChar : Int) (cursorLine : Int)
    (isItalic : Bool) (parent : Option SelRange) : Option SelRange :=
  let inCursor := fun (i0 len : Nat) =>
    decide (Int.ofNat i0 ≤ cursorChar) && decide (cursorChar ≤ Int.ofNat (i0 + len))
  let matchStrs : List (List Char) :=
    if isItalic then
      let ms1 := (scanWith (fun _ s => (tryItalic1 s).map (fun r => (r.1, r.2)))
          (lineText.length + 1) none lineText 0).filter (fun hit =>
        match indexOfSub lineText (slice lineText hit.1 hit.2.1) with
        | some i0 => inCursor i0 hit.2.1
        | none => false)
      if ms1.isEmpty then
        match tryItalic2 lineText with
        | some (g1s, g1l) =>
          if inCursor 0 lineText.length then
            [slice lineText g1s g1l]
          else []
        | none => []
      else ms1.map (fun hit => slice lineText (hit.1 + hit.2.2.1) hit.2.2.2)
    else
      ((scanWith (fun _ s => (tryCodeSpanAt s).map (fun L => (L, ())))
          (lineText.length + 1) none lineText 0).filter (fun hit =>
        match indexOfSub lineText (slice lineText hit.1 hit.2.1) with
        | some i0 => inCursor i0 hit.2.1
        | none => false)).map (fun hit => slice lineText hit.1 hit.2.1)
  match matchStrs with
  | [] => none
  | m :: _ =>
    let startIndex := (indexOfSub lineText m).getD 0
    let len := m.length
    let cursorOnType := cursorChar == Int.ofNat startIndex ||
      cursorChar == Int.ofNat (startIndex + len)
    let contentAndType := makeSelectionRange
      ⟨⟨cursorLine, Int.ofNat startIndex⟩, ⟨cursorLine, Int.ofNat (startIndex + len)⟩⟩ parent
    let content := makeSelectionRange
      ⟨⟨cursorLine, Int.ofNat (startIndex + 1)⟩, ⟨cursorLine, Int.ofNat (startIndex + len) - 1⟩⟩
      (some contentAndType)
    some (if cursorOnType then contentAndType else content)

/-- `createLinkRange` from `smartSelect.ts` (the link provider's output is
passed in as `allLinks`). -/
def createLinkRange (document : TextDoc) (cursorPos : Pos) (parent : Option SelRange)
    (allLinks : List MdLink) : Option SelRange :=
  let linksInRange := allLinks.filter (fun link => rangeContainsPos link.source.range cursorPos)
  match linksInRange.getLast? with
  | none => none
  | some link =>
    if link.kind == MdLinkKind.autoLink then
      some (makeSelectionRange link.source.hrefRange
        (some (makeSelectionRange link.source.range parent)))
    else
      let isRef := match link.href with
        | .reference _ => true
        | _ => false
      if isRef && areRangesEqual link.source.targetRange link.source.range then
        some (makeSelectionRange link.source.targetRange parent)
      else
        let fullLinkSelectionRange := makeSelectionRange link.source.range parent
        if rangeContainsPos link.source.targetRange cursorPos then
          if link.kind == MdLinkKind.definition then
            some (makeSelectionRange link.source.targetRange (some fullLinkSelectionRange))
          else
            let linkDestRanges := makeSelectionRange
              ⟨translatePosition link.source.targetRange.start 0 1,
               translatePosition link.source.targetRange.stop 0 (-1)⟩
              (some (makeSelectionRange link.source.targetRange (some fullLinkSelectionRange)))
            let angleOrRest : SelRange :=
              if link.source.isAngleBracketLink &&
                  rangeContainsPos link.source.hrefRange cursorPos then
                makeSelectionRange link.source.hrefRange
                  (some (makeSelectionRange
                    ⟨translatePosition link.source.hrefRange.start 0 (-1),
                     translatePosition link.source.hrefRange.stop 0 1⟩
                    (some linkDestRanges)))
              else
                match link.source.titleRange with
                | some _ => makeSelectionRange link.source.hrefRange (some linkDestRanges)
                | none => linkDestRanges
            match link.source.titleRange with
            | some tr =>
              if rangeContainsPos tr cursorPos then
                some (makeSelectionRange tr (some linkDestRanges))
              else some angleOrRest
            | none => some angleOrRest
        else
          if link.kind == MdLinkKind.definition then
            some (makeSelectionRange
              ⟨translatePosition link.source.range.start 0 1,
               translatePosition link.source.targetRange.start 0 (-3)⟩
              (some fullLinkSelectionRange))
          else
            some (makeSelectionRange
              ⟨translatePosition link.source.range.start 0 1,
               translatePosition link.source.targetRange.start 0 (-1)⟩
              (some fullLinkSelectionRange))

/-- The combined bold/italic selection of `createInlineRange`. -/
def comboSelectionOf (lineText : List Char) (cursorChar cursorLine : Int)
    (boldSelection italicSelection : Option SelRange) : Option SelRange :=
  match boldSelection, italicSelection with
  | some b, some i =>
    if !areRangesEqual b.range i.range then
      if rangeContains b.range i.range then
        createOtherInlineRange lineText cursorChar cursorLine true (some b)
      else if rangeContains i.range b.range then
        createBoldRange lineText cursorChar cursorLine (some i)
      else none
    else none
  | _, _ => none

/-- `createInlineRange` from `smartSelect.ts`. -/
def createInlineRange (document : TextDoc) (cursorPosition : Pos) (parent : Option SelRange)
    (allLinks : List MdLink) : Option SelRange :=
  let lineText := document.getLine cursorPosition.line
  let boldSelection := createBoldRange lineText cursorPosition.character cursorPosition.line parent
  let italicSelection :=
    createOtherInlineRange lineText cursorPosition.character cursorPosition.line true parent
  let comboSelection : Option SelRange :=
    comboSelectionOf lineText cursorPosition.character cursorPosition.line
      boldSelection italicSelection
  let linkSelection := createLinkRange document cursorPosition
    (optOr comboSelection (optOr boldSelection (optOr italicSelection parent))) allLinks
  let inlineCodeBlockSelection := createOtherInlineRange lineText cursorPosition.character
    cursorPosition.line false (optOr linkSelection parent)
  optOr inlineCodeBlockSelection (optOr linkSelection
    (optOr comboSelection (optOr boldSelection italicSelection)))

/-- `MdSelectionRangeProvider.#provideSelectionRange`: headers, then block
tokens, then inline constructs (the tokenizer, table of contents, URI
parser and HTML parser are the external collaborators). -/
def provideSelectionRange (uriParse : UriParser) (tokens : List Token)
    (htmlParse : List Char → List HtmlNode) (toc : List TocEntry) (document : TextDoc)
    (ws : Workspace) (position : Pos) : Option SelRange :=
  let headerRange := getHeaderSelectionRange toc document position
  let blockRange := getBlockSelectionRange tokens document position headerRange
  let allLinks := getAllLinks uriParse tokens htmlParse document ws
  let inlineRange := createInlineRange document position blockRange allLinks
  optOr inlineRange (optOr blockRange headerRange)


/-- No two adjacent ranges of a chain are equal. -/
def noAdjacentEqual : List Range → Bool
  | r1 :: r2 :: rest => !areRangesEqual r1 r2 && noAdjacentEqual (r2 :: rest)
  | _ => true

/-- `noAdjacentEqual` over a selection-range chain. -/
def selNoAdj (sr : SelRange) : Bool :=
  noAdjacentEqual (chainRanges sr)

/-- `selNoAdj` on an optional selection range. -/
def optSelNoAdj : Option SelRange → Bool
  | none => true
  | some sr => selNoAdj sr

/-- Modelled from the spec: the tokenizer's block tokens for a single-line
paragraph (`paragraph_open`/`inline` with map `[0, 1)` and an unmapped
`paragraph_close`). -/
def paragraphTokens : List Token :=
  [⟨"paragraph_open", some (0, 1)⟩, ⟨"inline", some (0, 1)⟩, ⟨"paragraph_close", none⟩]


/-! ## Link-target resolution (`MdLinkProvider.resolveLinkTarget`) -/

/-- The value of a decimal-digit string. -/
def digitsToNat (cs : List Char) : Nat :=
  cs.foldl (fun a c => a * 10 + (c.toNat - '0'.toNat)) 0

/-- Modelled from the spec: `parseLocationInfoFromFragment` from
`util/path.ts`: a fragment `L<line>[,<column>]` (case-insensitive `L`)
encodes an explicit position; line and column are 1-based in the
fragment. -/
def parseLocationInfoFromFragment (frag : List Char) : Option Pos :=
  match frag with
  | c :: rest =>
    if c == 'L' || c == 'l' then
      let ds := countWhile (fun c => '0' ≤ c && c ≤ '9') rest
      if ds == 0 then none
      else
        let lineNum := digitsToNat (rest.take ds)
        match rest.drop ds with
        | [] => some ⟨Int.ofNat lineNum - 1, 0⟩
        | ',' :: rest2 =>
          let ds2 := countWhile (fun c => '0' ≤ c && c ≤ '9') rest2
          if ds2 == 0 || !(ds2 == rest2.length) then none
          else some ⟨Int.ofNat lineNum - 1, Int.ofNat (digitsToNat rest2) - 1⟩
        | _ => none
    else none
  | [] => none

/-- Modelled from the spec: `tryAppendMarkdownFileExtension` from
`workspace.ts` with the default configuration (`markdownFileExtensions =
["md"]`): a Markdown path is returned unchanged, an extension-less path
gets `.md` appended, any other path fails. -/
def tryAppendMarkdownFileExtension (u : Uri) : Option Uri :=
  let ext := u.extname
  if ext == ".md" then some u
  else if ext == "" then
    some { u with segs := u.segs.dropLast ++ [(u.segs.getLast?.getD "") ++ ".md"] }
  else none

/-- Modelled from the spec: `TableOfContents.lookupByFragment`: the first
entry whose assigned slug is exactly the fragment. -/
def tocLookupByFragment (toc : List TocEntry) (frag : List Char) : Option TocEntry :=
  toc.find? (fun e => e.slug == String.mk frag)

/-- `ResolvedDocumentLinkTarget` from `documentLinks.ts` (the `externalFile`
and `ref` cases do not arise from the embedded entry points). -/
inductive ResolvedTarget where
  | folder (uri : Uri)
  | file (uri : Uri) (position : Option Pos) (fragment : Option (List Char))
deriving DecidableEq, Repr

/-- The fragment steps of `MdLinkProvider.#resolveInternalLinkTarget`, after
the target path has been fixed: no fragment, an explicit line/column
fragment, or a header-slug lookup in the target document's table of
contents. -/
def resolveFragStep (tocOf : TextDoc → List TocEntry) (ws : Workspace) (target : Uri)
    (frag : List Char) : ResolvedTarget :=
  if frag.isEmpty then .file target none none
  else
    match parseLocationInfoFromFragment frag with
    | some p => .file target (some p) none
    | none =>
      match ws.openMarkdownDocument target with
      | some d =>
        match tocLookupByFragment (tocOf d) frag with
        | some e => .file e.uri (some e.headerRange.start) (some frag)
        | none => .file target none none
      | none => .file target none none

/-- `MdLinkProvider.#resolveInternalLinkTarget`: the containing-document /
`stat` / `.md`-append target fix-up with its early returns, then the
fragment steps. -/
def resolveInternalLinkTarget (tocOf : TextDoc → List TocEntry) (ws : Workspace)
    (linkPath : Uri) (linkFragment : List Char) : ResolvedTarget :=
  match ws.getContainingDocument linkPath with
  | some _ => resolveFragStep tocOf ws linkPath linkFragment
  | none =>
    match ws.stat linkPath with
    | some st =>
      if st.isDirectory then .folder linkPath
      else resolveFragStep tocOf ws linkPath linkFragment
    | none =>
      match tryAppendMarkdownFileExtension linkPath with
      | some dotMd =>
        if (ws.stat dotMd).isSome then resolveFragStep tocOf ws dotMd linkFragment
        else .file linkPath none none
      | none => .file linkPath none none

/-- `MdLinkProvider.resolveLinkTarget`. -/
def resolveLinkTarget (uriParse : UriParser) (tocOf : TextDoc → List TocEntry)
    (ws : Workspace) (linkText : List Char) (sourceDoc : Uri) : Option ResolvedTarget :=
  match createHref uriParse sourceDoc linkText ws with
  | some (.internal _ _) =>
    (match resolveInternalDocumentLink sourceDoc linkText ws with
     | none => none
     | some (res, frag) => some (resolveInternalLinkTarget tocOf ws res frag))
  | _ => none

/-- A concrete fixture for the fragment-resolution examples: the target
document `/workspace/x.md` with a `heading` header on line 4. -/
def c5Entry : TocEntry :=
  { uri := fileUri ["workspace", "x.md"]
    slug := "heading"
    line := 4
    sectionRange := mkRange 4 0 6 0
    headerRange := mkRange 4 0 4 9
    headerTextRange := mkRange 4 2 4 9 }

/-- The table-of-contents collaborator for the fixture. -/
def c5TocOf : TextDoc → List TocEntry := fun d =>
  if d.uri == fileUri ["workspace", "x.md"] then [c5Entry] else []

/-- The workspace for the fixture: `/workspace/x.md` exists and opens. -/
def c5Workspace : Workspace :=
  { folders := [fileUri ["workspace"]]
    entries := [⟨fileUri ["workspace", "x.md"], false⟩]
    docs := [{ uri := fileUri ["workspace", "x.md"], version := 0, text := [] }]
    containing := [] }

/-- The specification's classification rule, stated in its own words: the
text starts with a scheme of two or more letters/hyphens followed by `:`
(to be compared against the code's `looksLikeUriScheme` test). -/
def IsSchemePrefixed (s : List Char) : Prop :=
  ∃ pre rest, s = pre ++ ':' :: rest ∧ 2 ≤ pre.length ∧
    ∀ c ∈ pre, ('a' ≤ c ∧ c ≤ 'z') ∨ ('A' ≤ c ∧ c ≤ 'Z') ∨ c = '-'

/-! ## File renames (from `languageFeatures/fileRename.ts` and the rename
provider's shared link-edit helpers) -/

/-- A single entry of the batch handed to `getRenameFilesInWorkspaceEdit`:
an `(oldUri, newUri)` pair. -/
structure FileRename where
  oldUri : Uri
  newUri : Uri
deriving DecidableEq, Repr

/-- One operation recorded by `WorkspaceEditBuilder`. -/
inductive EditOp where
  | replace (doc : Uri) (range : Range) (newText : List Char)
  | renameFile (oldUri newUri : Uri)
deriving DecidableEq, Repr

/-- Modelled from the spec: `looksLikeMarkdownUri` under the default
configuration (`markdownFileExtensions = ["md"]`): the URI's last segment
has the `.md` extension. -/
def looksLikeMarkdownUri (u : Uri) : Bool :=
  u.extname == ".md"

/-- Modelled from the spec: `needsAngleBracketLink` from `util/mdLinks.ts`:
the path needs angle brackets when it contains whitespace, parens, or
other characters unsafe in a bare target. -/
def needsAngleBracketLink (s : List Char) : Bool :=
  s.any (fun c => c == ' ' || c == '\t' || c == '(' || c == ')' || c == '<' || c == '>')

/-- Modelled from the spec: `escapeForAngleBracketLink` from
`util/mdLinks.ts`: backslash-escape the angle-bracket characters. -/
def escapeForAngleBracketLink (s : List Char) : List Char :=
  s.flatMap (fun c => if c == '<' || c == '>' then ['\\', c] else [c])

/-- `getLinkRenameText` from the rename provider: root-absolute href texts
are re-expressed root-absolutely against the source document's workspace
folder; all others as a relative path from the source document. -/
def getLinkRenameText (ws : Workspace) (source : MdLinkSource) (newPath : Uri)
    (preferDotSlash : Bool) : Option String :=
  if source.hrefText.head? == some '/' then
    match resolveInternalDocumentLink source.resource ['/'] ws with
    | none => none
    | some (root, _) => some ("/" ++ joinSegs (relativeSegs root.segs newPath.segs))
  else
    computeRelativePath source.resource newPath preferDotSlash

/-- `getFilePathRange` from the rename provider: the href range up to (and
excluding) the `#` that opens the fragment, when one is present. -/
def getFilePathRange (link : MdLink) : Range :=
  match link.source.hrefFragmentRange with
  | some fr => modifyRange link.source.hrefRange none (some (translatePosition fr.start 0 (-1)))
  | none => link.source.hrefRange

/-- `newPathWithFragmentIfNeeded` from the rename provider: an internal href
with a non-empty fragment keeps its `#fragment` suffix. -/
def newPathWithFragmentIfNeeded (newPath : List Char) (link : MdLink) : List Char :=
  match link.href with
  | .internal _ fragment => if fragment.isEmpty then newPath else newPath ++ '#' :: fragment
  | _ => newPath

/-- `getLinkRenameEdit` from the rename provider: re-point the href span at
the new path text, converting backslashes to `/`, re-appending the
fragment, and adding, removing or escaping angle brackets as the new path
requires. -/
def getLinkRenameEdit (link : MdLink) (newPathText : List Char) : Range × List Char :=
  let linkRange := link.source.hrefRange
  let np := newPathWithFragmentIfNeeded
    (newPathText.map (fun c => if c == '\\' then '/' else c)) link
  if link.source.isAngleBracketLink then
    if !needsAngleBracketLink np then
      ({ start := translatePosition linkRange.start 0 (-1)
         stop := translatePosition linkRange.stop 0 1 }, np)
    else (linkRange, escapeForAngleBracketLink np)
  else if needsAngleBracketLink np then
    (linkRange, '<' :: (escapeForAngleBracketLink np ++ ['>']))
  else (linkRange, np)

/-- `MdFileRenameProvider.#addLinkRenameEdit`: for an internal link, compute
the new link text toward `newUri` and record a replace edit over the href
range; `none` when the link is not internal or no link text can be
computed.  `removeExt` stands for the configuration-dependent
`removeNewUriExtIfNeeded` collaborator from `util/mdLinks.ts`. -/
def addLinkRenameEdit (removeExt : Href → Uri → Uri) (ws : Workspace)
    (doc : Uri) (link : MdLink) (newUri : Uri) : Option EditOp :=
  match link.href with
  | .internal _ _ =>
    let newFilePath := removeExt link.href newUri
    (match getLinkRenameText ws link.source newFilePath
        (link.source.hrefText.head? == some '.') with
     | some newLinkText =>
       let e := getLinkRenameEdit link newLinkText.data
       some (.replace doc e.1 e.2)
     | none => none)
  | _ => none

/-- `MdFileRenameProvider.#addEditsForLinksInSelf`: skip non-internal,
fragment-only (`#...`) and root-absolute (`/...`) links; resolve the href
text against the file's old location; when the resolved target is itself
renamed by the batch (the same resource, or a descendant of a renamed
directory — first matching batch entry wins), chain through to that
target's new location; then record the link rename edit. -/
def addEditsForLinksInSelf (removeExt : Href → Uri → Uri) (ws : Workspace)
    (doc : TextDoc) (link : MdLink) (edit : FileRename)
    (allEdits : List FileRename) : Option EditOp :=
  match link.href with
  | .internal _ _ =>
    if link.source.hrefText.head? == some '#' then none
    else if link.source.hrefText.head? == some '/' then none
    else
      match resolveInternalDocumentLink edit.oldUri link.source.hrefText ws with
      | none => none
      | some (res, _) =>
        let tgt := match allEdits.find? (fun e2 =>
            isSameResource e2.oldUri res || isParentDir e2.oldUri res) with
          | some e2 => e2.newUri.joinPath (joinSegs (relativeSegs e2.oldUri.segs res.segs))
          | none => res
        addLinkRenameEdit removeExt ws doc.uri link tgt
  | _ => none

/-- `MdFileRenameProvider.#tryAddEditsInSelf`: when the renamed file is an
openable, non-excluded Markdown document, compute its links and record the
edit each link contributes.  `isExcluded` stands for the
configuration-dependent `isExcludedPath` collaborator. -/
def tryAddEditsInSelf (uriParse : UriParser) (tokensOf : TextDoc → List Token)
    (htmlParse : List Char → List HtmlNode) (isExcluded : Uri → Bool)
    (removeExt : Href → Uri → Uri) (ws : Workspace) (edit : FileRename)
    (allEdits : List FileRename) : List EditOp :=
  if !looksLikeMarkdownUri edit.newUri then []
  else if isExcluded edit.newUri then []
  else
    match ws.openMarkdownDocument edit.newUri with
    | none => []
    | some doc =>
      (getAllLinks uriParse (tokensOf doc) htmlParse doc ws).filterMap
        (fun link => addEditsForLinksInSelf removeExt ws doc link edit allEdits)

/-- A concrete batch-rename fixture: `/ws/b.md` moves to `/ws/sub2/b.md`
while `/ws/a.md` moves to `/ws/sub/a.md`; `b.md` links to `./a.md`. -/
def c4SelfEdit : FileRename :=
  ⟨fileUri ["ws", "b.md"], fileUri ["ws", "sub2", "b.md"]⟩

/-- The full rename batch of the fixture. -/
def c4Batch : List FileRename :=
  [c4SelfEdit, ⟨fileUri ["ws", "a.md"], fileUri ["ws", "sub", "a.md"]⟩]

/-- The moved document, already at its new location, with its old link
text. -/
def c4Doc : TextDoc :=
  { uri := fileUri ["ws", "sub2", "b.md"], version := 0, text := "[t](./a.md)".data }

/-- The fixture workspace. -/
def c4Workspace : Workspace :=
  { folders := [fileUri ["ws"]]
    entries := [⟨fileUri ["ws", "sub2", "b.md"], false⟩]
    docs := [c4Doc]
    containing := [] }

/-- The `./a.md` link of the fixture document, as the link scanner reports
it. -/
def c4Link : MdLink :=
  { kind := .link
    href := .internal (fileUri ["ws", "sub2", "a.md"]) []
    source := { hrefText := "./a.md".data
                resource := fileUri ["ws", "sub2", "b.md"]
                range := mkRange 0 0 0 11
                targetRange := mkRange 0 4 0 10
                hrefRange := mkRange 0 4 0 10
                isAngleBracketLink := false
                hrefPathText := "./a.md".data
                hrefFragmentRange := none
                titleRange := none } }

/-- A fragment-only link used to exercise the `#...` skip. -/
def c4HashLink : MdLink :=
  { kind := .link
    href := .internal (fileUri ["ws", "sub2", "b.md"]) "x".data
    source := { hrefText := "#x".data
                resource := fileUri ["ws", "sub2", "b.md"]
                range := mkRange 1 0 1 7
                targetRange := mkRange 1 4 1 6
                hrefRange := mkRange 1 4 1 6
                isAngleBracketLink := false
                hrefPathText := []
                hrefFragmentRange := some (mkRange 1 5 1 6)
                titleRange := none } }

/-- `MdReference` from `types/documentLink.ts` / the references provider:
a header declaration reference (its document, full header range and
header-text range) or a link reference (the link and its location
range). -/
inductive MdReference where
  | header (uri : Uri) (range : Range) (headerTextRange : Range)
  | link (l : MdLink) (range : Range)
deriving DecidableEq, Repr

/-- The first header reference's document and range, as
`references.find(x => x.kind === Header)` extracts them. -/
def MdReference.headerInfo : MdReference → Option (Uri × Range)
  | .header uri range _ => some (uri, range)
  | .link _ _ => none

/-- `MdRenameProvider.#renameFragment`: rename a header (or fragment) to
`newHeaderText`.  When the trigger resolves to a real header declaration,
a hypothetical copy of its document with the header line replaced by
`'# ' + newHeaderText` is built, the table of contents is recomputed
(`tocCreate` stands for the table-of-contents collaborator), old and new
entries are compared by ordinal index, and every other header whose slug
differs gains fragment-rewrite edits for all its link references
(`getRefs` stands for the recursive reference lookup); the new slug is
taken from the edited document's entry at the trigger's line.  Then every
gathered reference is rewritten: header declarations get
`newHeaderText`, link references get `newHeaderText` in their whole
range when no fragment span exists or the href is External, and the new
slug in their fragment span otherwise. -/
def renameFragment (slugify : List Char → String) (tocCreate : TextDoc → List TocEntry)
    (getRefs : TextDoc → Pos → List MdReference) (ws : Workspace)
    (allRefs : List MdReference) (newHeaderText : List Char) : List EditOp :=
  let newSlug0 := slugify newHeaderText
  let (cascadeEdits, newSlug) :=
    match allRefs.findSome? MdReference.headerInfo with
    | none => ([], newSlug0)
    | some (uri, range) =>
      match ws.openMarkdownDocument uri with
      | none => ([], newSlug0)
      | some doc =>
        let editedDoc := doc.replaceRange range ('#' :: ' ' :: newHeaderText)
        let oldToc := tocCreate doc
        let newToc := tocCreate editedDoc
        let (changedHeaders, slug1) := (oldToc.zip newToc).foldl
          (fun (acc : List TocEntry × String) (pr : TocEntry × TocEntry) =>
            if pr.1.headerRange.start.line == range.start.line then (acc.1, pr.2.slug)
            else if pr.1.slug != pr.2.slug then (acc.1 ++ [pr.2], acc.2)
            else acc)
          ([], newSlug0)
        (changedHeaders.flatMap (fun ch =>
          (getRefs doc ch.headerRange.start).filterMap (fun r =>
            match r with
            | MdReference.link l rg =>
              some (EditOp.replace l.source.resource (l.source.hrefFragmentRange.getD rg) ch.slug.data)
            | MdReference.header _ _ _ => none)), slug1)
  cascadeEdits ++ allRefs.map (fun r =>
    match r with
    | MdReference.header uri _ headerTextRange => EditOp.replace uri headerTextRange newHeaderText
    | MdReference.link l rg =>
      EditOp.replace l.source.resource (l.source.hrefFragmentRange.getD rg)
        (if l.source.hrefFragmentRange.isNone ||
            (match l.href with | .external _ => true | _ => false)
         then newHeaderText else newSlug.data))

/-- The specification's description of the header-rename edit set, stated
declaratively in its own words: the changed headers are the ordinal
positions at which the old and recomputed tables assign different slugs,
excluding the trigger's own line; the new slug is the recomputed table's
slug at the trigger's line (the slug computed for the new text), falling
back to slugifying the new text; each changed header contributes
fragment rewrites of all its link references to its newly assigned slug,
and every gathered reference is then rewritten as the claim states. -/
def renameFragmentDesc (slugify : List Char → String) (tocCreate : TextDoc → List TocEntry)
    (getRefs : TextDoc → Pos → List MdReference) (ws : Workspace)
    (allRefs : List MdReference) (newHeaderText : List Char) : List EditOp :=
  let finalEdit := fun (slug : String) (r : MdReference) =>
    match r with
    | MdReference.header uri _ headerTextRange => EditOp.replace uri headerTextRange newHeaderText
    | MdReference.link l rg =>
      EditOp.replace l.source.resource (l.source.hrefFragmentRange.getD rg)
        (if l.source.hrefFragmentRange.isNone ||
            (match l.href with | .external _ => true | _ => false)
         then newHeaderText else slug.data)
  match allRefs.findSome? MdReference.headerInfo with
  | some (uri, range) =>
    match ws.openMarkdownDocument uri with
    | some doc =>
      let editedDoc := doc.replaceRange range ('#' :: ' ' :: newHeaderText)
      let pairs := (tocCreate doc).zip (tocCreate editedDoc)
      let newSlug :=
        match (pairs.filter (fun pr => pr.1.headerRange.start.line == range.start.line)).getLast? with
        | some pr => pr.2.slug
        | none => slugify newHeaderText
      let changed := (pairs.filter (fun pr =>
          pr.1.headerRange.start.line != range.start.line && pr.1.slug != pr.2.slug)).map
        (fun pr => pr.2)
      changed.flatMap (fun ch =>
        (getRefs doc ch.headerRange.start).filterMap (fun r =>
          match r with
          | MdReference.link l rg =>
            some (.replace l.source.resource (l.source.hrefFragmentRange.getD rg) ch.slug.data)
          | MdReference.header _ _ _ => none)) ++
        allRefs.map (finalEdit newSlug)
    | none => allRefs.map (finalEdit (slugify newHeaderText))
  | none => allRefs.map (finalEdit (slugify newHeaderText))

/-- A concrete cascading-rename fixture: a document with three `# Header`
duplicates; renaming the middle one shifts the third one's slug from
`header-2` to `header-1`. -/
def c1Doc : TextDoc :=
  { uri := fileUri ["ws", "h.md"], version := 0
    text := "# Header\n# Header\n# Header".data }

/-- A toc entry of the fixture at a given line with a given slug. -/
def c1Entry (line : Int) (slug : String) : TocEntry :=
  { uri := fileUri ["ws", "h.md"], slug := slug, line := line
    sectionRange := mkRange line 0 (line + 1) 0
    headerRange := mkRange line 0 line 8
    headerTextRange := mkRange line 2 line 8 }

/-- Modelled from the spec: the table-of-contents collaborator of the
fixture: duplicate `Header` slugs are disambiguated with `-1`, `-2`
suffixes; the edited copy gets `header`, `new`, `header-1`. -/
def c1TocOf : TextDoc → List TocEntry := fun d =>
  if d.text == "# Header\n# Header\n# Header".data then
    [c1Entry 0 "header", c1Entry 1 "header-1", c1Entry 2 "header-2"]
  else if d.text == "# Header\n# New\n# Header".data then
    [c1Entry 0 "header", c1Entry 1 "new", c1Entry 2 "header-1"]
  else []

/-- The link in `links.md` whose fragment names the third header's old
slug `header-2`. -/
def c1CascadeLink : MdLink :=
  { kind := .link
    href := .internal (fileUri ["ws", "h.md"]) "header-2".data
    source := { hrefText := "h.md#header-2".data
                resource := fileUri ["ws", "links.md"]
                range := mkRange 0 0 0 18
                targetRange := mkRange 0 4 0 17
                hrefRange := mkRange 0 4 0 17
                isAngleBracketLink := false
                hrefPathText := "h.md".data
                hrefFragmentRange := some (mkRange 0 9 0 17)
                titleRange := none } }

/-- The link in `links.md` whose fragment names the renamed header's old
slug `header-1`. -/
def c1TriggerLink : MdLink :=
  { kind := .link
    href := .internal (fileUri ["ws", "h.md"]) "header-1".data
    source := { hrefText := "h.md#header-1".data
                resource := fileUri ["ws", "links.md"]
                range := mkRange 1 0 1 18
                targetRange := mkRange 1 4 1 17
                hrefRange := mkRange 1 4 1 17
                isAngleBracketLink := false
                hrefPathText := "h.md".data
                hrefFragmentRange := some (mkRange 1 9 1 17)
                titleRange := none } }

/-- Modelled from the spec: the recursive reference lookup of the fixture:
the third header (line 2) is referenced by the cascade link. -/
def c1GetRefs : TextDoc → Pos → List MdReference := fun _ p =>
  if p == ⟨2, 0⟩ then [.link c1CascadeLink (mkRange 0 0 0 18)] else []

/-- The fixture workspace. -/
def c1Workspace : Workspace :=
  { folders := [fileUri ["ws"]]
    entries := [⟨fileUri ["ws", "h.md"], false⟩]
    docs := [c1Doc]
    containing := [] }

/-- Modelled from the spec: a slugifier lower-casing the heading text. -/
def c1Slugify : List Char → String := fun cs => String.mk (cs.map (fun c => c.toLower))

/-- The gathered reference set for renaming the middle header: its
declaration and the link to its old slug. -/
def c1AllRefs : List MdReference :=
  [.header (fileUri ["ws", "h.md"]) (mkRange 1 0 1 8) (mkRange 1 2 1 8),
   .link c1TriggerLink (mkRange 1 0 1 18)]

/-! ## Helper lemmas -/

/-- The slug-diff fold of `#renameFragment` computes the filtered changed
headers and the last trigger-line slug. -/
theorem renameFold_eq (line : Int) (pairs : List (TocEntry × TocEntry))
    (acc : List TocEntry) (s : String) :
    pairs.foldl
        (fun (acc : List TocEntry × String) (pr : TocEntry × TocEntry) =>
          if pr.1.headerRange.start.line == line then (acc.1, pr.2.slug)
          else if pr.1.slug != pr.2.slug then (acc.1 ++ [pr.2], acc.2)
          else acc)
        (acc, s) =
      (acc ++ (pairs.filter (fun pr =>
          pr.1.headerRange.start.line != line && pr.1.slug != pr.2.slug)).map (fun pr => pr.2),
       match (pairs.filter (fun pr => pr.1.headerRange.start.line == line)).getLast? with
       | some pr => pr.2.slug
       | none => s) := by
  induction pairs generalizing acc s with
  | nil => simp
  | cons pr rest ih =>
    by_cases h : (pr.1.headerRange.start.line == line) = true
    · have hb : (pr.1.headerRange.start.line != line && pr.1.slug != pr.2.slug) = false := by
        simp [bne, h]
      simp only [List.foldl_cons, List.filter_cons, h, hb, if_true, Bool.false_eq_true,
        if_false]
      rw [ih]
      rcases hf : rest.filter (fun pr => pr.1.headerRange.start.line == line) with _ | ⟨q, qs⟩
      · simp [hf]
      · rw [hf]
        cases hg : (q :: qs).getLast? with
        | none => simp at hg
        | some z => rw [List.getLast?_cons_cons, hg]
    · have h2 : (pr.1.headerRange.start.line == line) = false := by
        cases hb : pr.1.headerRange.start.line == line
        · rfl
        · exact absurd hb h
      by_cases hs : (pr.1.slug != pr.2.slug) = true
      · have hb : (pr.1.headerRange.start.line != line && pr.1.slug != pr.2.slug) = true := by
          simp only [bne] at hs ⊢
          simp [h2, hs]
        have h3 : pr.1.headerRange.start.line ≠ line := by
          intro he
          rw [he] at h2
          simp at h2
        simp only [List.foldl_cons, List.filter_cons, h2, hs, hb, Bool.false_eq_true,
          if_false, eq_self_iff_true, if_true]
        rw [ih]
        simp [h3]
      · have hs2 : (pr.1.slug != pr.2.slug) = false := by
          cases hb : pr.1.slug != pr.2.slug
          · rfl
          · exact absurd hb hs
        have hb : (pr.1.headerRange.start.line != line && pr.1.slug != pr.2.slug) = false := by
          simp only [bne] at hs2 ⊢
          simp [h2, hs2]
        simp only [List.foldl_cons, List.filter_cons, h2, hs2, hb, Bool.false_eq_true,
          if_false]
        rw [ih]
        simp


theorem countWhile_le (p : Char → Bool) : ∀ s : List Char, countWhile p s ≤ s.length := by
  intro s
  induction s with
  | nil => simp [countWhile]
  | cons c rest ih =>
    simp only [countWhile, List.length_cons]
    split <;> omega

theorem posInChars_step (c : Char) (rest : List Char) (off line col : Nat) :
    posInChars (c :: rest) (off + 1) line col =
      if c = '\n' then posInChars rest off (line + 1) 0
      else posInChars rest off line (col + 1) := by
  by_cases hc : c = '\n'
  · subst hc
    simp [posInChars]
  · simp [posInChars, hc]

theorem posInChars_zero (cs : List Char) (line col : Nat) :
    posInChars cs 0 line col = ⟨line, col⟩ := by
  cases cs <;> simp [posInChars]

theorem posInChars_line_ge (cs : List Char) :
    ∀ (off : Nat) (line col : Nat), (line : Int) ≤ (posInChars cs off line col).line := by
  induction cs with
  | nil =>
    intro off line col
    cases off <;> simp [posInChars]
  | cons c rest ih =>
    intro off line col
    cases off with
    | zero => simp [posInChars]
    | succ off =>
      rw [posInChars_step]
      by_cases hc : c = '\n'
      · rw [if_pos hc]
        have h1 := ih off (line + 1) 0
        omega
      · rw [if_neg hc]
        exact ih off line (col + 1)

theorem posInChars_mono (cs : List Char) :
    ∀ (o1 o2 : Nat) (line col : Nat), o1 ≤ o2 →
      (posInChars cs o1 line col).isBeforeOrEqual (posInChars cs o2 line col) = true := by
  induction cs with
  | nil =>
    intro o1 o2 line col _
    have h1 : ∀ o : Nat, posInChars [] o line col = ⟨line, col⟩ := by
      intro o; cases o <;> simp [posInChars]
    rw [h1, h1]
    simp [Pos.isBeforeOrEqual]
  | cons c rest ih =>
    intro o1 o2 line col hle
    cases o1 with
    | zero =>
      rw [posInChars_zero]
      cases o2 with
      | zero =>
        rw [posInChars_zero]
        simp [Pos.isBeforeOrEqual]
      | succ o2 =>
        rw [posInChars_step]
        by_cases hc : c = '\n'
        · rw [if_pos hc]
          have h1 := posInChars_line_ge rest o2 (line + 1) 0
          simp only [Pos.isBeforeOrEqual, decide_eq_true_eq, Bool.or_eq_true,
            Bool.and_eq_true, beq_iff_eq]
          omega
        · rw [if_neg hc]
          have h5 := ih 0 o2 line (col + 1) (Nat.zero_le _)
          rw [posInChars_zero] at h5
          simp only [Pos.isBeforeOrEqual, decide_eq_true_eq, Bool.or_eq_true,
            Bool.and_eq_true, beq_iff_eq] at h5 ⊢
          omega
    | succ o1 =>
      cases o2 with
      | zero => omega
      | succ o2 =>
        rw [posInChars_step, posInChars_step]
        by_cases hc : c = '\n'
        · rw [if_pos hc, if_pos hc]
          exact ih o1 o2 (line + 1) 0 (by omega)
        · rw [if_neg hc, if_neg hc]
          exact ih o1 o2 line (col + 1) (by omega)

theorem positionAt_mono (doc : TextDoc) {o1 o2 : Nat} (h : o1 ≤ o2) :
    (doc.positionAt o1).isBeforeOrEqual (doc.positionAt o2) = true :=
  posInChars_mono doc.text o1 o2 0 0 h

theorem isBeforeOrEqual_trans {a b c : Pos} (h1 : a.isBeforeOrEqual b = true)
    (h2 : b.isBeforeOrEqual c = true) : a.isBeforeOrEqual c = true := by
  simp only [Pos.isBeforeOrEqual, decide_eq_true_eq, Bool.or_eq_true, Bool.and_eq_true,
    beq_iff_eq] at h1 h2 ⊢
  omega

theorem linkTitleAt_le {s : List Char} {t : Nat} (h : linkTitleAt s = some t) :
    t ≤ s.length := by
  rw [linkTitleAt.eq_def] at h
  split at h
  · next rest =>
    dsimp only at h
    split at h
    · next heq =>
      have h1 := congrArg List.length heq
      simp only [List.length_drop, List.length_cons] at h1
      simp only [Option.some.injEq] at h
      simp only [List.length_cons]
      omega
    · exact absurd h (by simp)
  · next rest =>
    dsimp only at h
    split at h
    · next heq =>
      have h1 := congrArg List.length heq
      simp only [List.length_drop, List.length_cons] at h1
      simp only [Option.some.injEq] at h
      simp only [List.length_cons]
      omega
    · exact absurd h (by simp)
  · next rest =>
    dsimp only at h
    split at h
    · next heq =>
      have h1 := congrArg List.length heq
      simp only [List.length_drop, List.length_cons] at h1
      simp only [Option.some.injEq] at h
      simp only [List.length_cons]
      omega
    · exact absurd h (by simp)
  · exact absurd h (by simp)

theorem linkTail_bounds {s : List Char} {t : Nat} {ti : Option (List Char)}
    (h : linkTail s = some (t, ti)) : 1 ≤ t ∧ t ≤ s.length := by
  rw [linkTail] at h
  dsimp only at h
  split at h
  · next tl htl =>
    have h1 := linkTitleAt_le htl
    have h2 := countWhile_le isWsChar s
    have h3 := countWhile_le isWsChar ((s.drop (countWhile isWsChar s)).drop tl)
    split at h
    · next heq =>
      have h4 := congrArg List.length heq
      simp only [List.length_drop, List.length_cons] at h1 h3 h4
      simp only [Option.some.injEq, Prod.mk.injEq] at h
      omega
    · exact absurd h (by simp)
  · split at h
    · next heq =>
      have h4 := congrArg List.length heq
      have h2 := countWhile_le isWsChar s
      simp only [List.length_drop, List.length_cons] at h4
      simp only [Option.some.injEq, Prod.mk.injEq] at h
      omega
    · exact absurd h (by simp)

theorem nextDestItem_bounds {s : List Char} {n : Nat} (h : nextDestItem s = some n) :
    1 ≤ n ∧ n ≤ s.length := by
  rw [nextDestItem.eq_def] at h
  dsimp only at h
  split at h
  · exact absurd h (by simp)
  · split at h
    · next heq =>
      have h1 := congrArg List.length heq
      simp only [List.length_drop, List.length_cons] at h1
      simp only [Option.some.injEq] at h
      simp only [List.length_cons]
      omega
    · exact absurd h (by simp)
  · split at h
    · exact absurd h (by simp)
    · simp only [Option.some.injEq] at h
      simp only [List.length_cons]
      omega

theorem destStarThenTail_bounds :
    ∀ {fuel : Nat} {s : List Char} {d t : Nat} {ti : Option (List Char)},
      destStarThenTail fuel s = some (d, t, ti) → d + t ≤ s.length ∧ 1 ≤ t := by
  intro fuel
  induction fuel with
  | zero => intro s d t ti h; exact absurd h (by simp [destStarThenTail])
  | succ fuel ih =>
    intro s d t ti h
    rw [destStarThenTail] at h
    split at h
    · next n hn =>
      have hb := nextDestItem_bounds hn
      split at h
      · next h2 =>
        have h3 := ih h2
        simp only [List.length_drop] at h3
        simp only [Option.some.injEq, Prod.mk.injEq] at h
        omega
      · simp only [Option.map_eq_some'] at h
        obtain ⟨⟨t', ti'⟩, hlt, heq⟩ := h
        have h4 := linkTail_bounds hlt
        simp only [Prod.mk.injEq] at heq
        omega
    · simp only [Option.map_eq_some'] at h
      obtain ⟨⟨t', ti'⟩, hlt, heq⟩ := h
      have h4 := linkTail_bounds hlt
      simp only [Prod.mk.injEq] at heq
      omega

theorem angleGoK_chain {α : Type} :
    ∀ {fuel : Nat} {k : Nat → Option α} {s : List Char} {r : α},
      angleGoK k fuel s = some r → ∃ n, 1 ≤ n ∧ n ≤ s.length ∧ k n = some r := by
  intro fuel
  induction fuel with
  | zero => intro k s r h; exact absurd h (by simp [angleGoK])
  | succ fuel ih =>
    intro k s r h
    rw [angleGoK.eq_def] at h
    match s, h with
    | [], h => exact absurd h (by simp)
    | c :: rest, h =>
      dsimp only at h
      split at h
      · exact ⟨1, by omega, by simp, h⟩
      · split at h
        · exact absurd h (by simp)
        · split at h
          · match rest, h with
            | [], h => exact absurd h (by simp)
            | c2 :: rest2, h =>
              dsimp only at h
              split at h
              · split at h
                · next r' hr =>
                  obtain ⟨n, h1, h2, h3⟩ := ih hr
                  simp only [Option.some.injEq] at h
                  subst h
                  refine ⟨n + 2, by omega, ?_, h3⟩
                  simp only [List.length_cons]
                  omega
                · obtain ⟨n, h1, h2, h3⟩ := ih h
                  refine ⟨n + 1, by omega, ?_, h3⟩
                  simp only [List.length_cons] at h2 ⊢
                  omega
              · obtain ⟨n, h1, h2, h3⟩ := ih h
                refine ⟨n + 1, by omega, ?_, h3⟩
                simp only [List.length_cons] at h2 ⊢
                omega
          · obtain ⟨n, h1, h2, h3⟩ := ih h
            refine ⟨n + 1, by omega, ?_, h3⟩
            simp only [List.length_cons] at h2 ⊢
            omega

theorem linkTextBody_le :
    ∀ {fuel : Nat} {s : List Char} {n : Nat},
      linkTextBody fuel s = some n → n + 1 ≤ s.length := by
  intro fuel
  induction fuel with
  | zero => intro s n h; exact absurd h (by simp [linkTextBody])
  | succ fuel ih =>
    intro s n h
    rw [linkTextBody.eq_def] at h
    match s, h with
    | [], h => exact absurd h (by simp)
    | c :: rest, h =>
      dsimp only at h
      split at h
      · simp only [Option.some.injEq] at h
        subst h
        simp
      · split at h
        · match rest, h with
          | [], h => exact absurd h (by simp)
          | c2 :: rest2, h =>
            dsimp only at h
            split at h
            · simp only [Option.map_eq_some'] at h
              obtain ⟨n', h1, h2⟩ := h
              have h3 := ih h1
              simp only [List.length_cons]
              omega
            · exact absurd h (by simp)
        · split at h
          · split at h
            · next heq =>
              simp only [Option.map_eq_some'] at h
              obtain ⟨n', h1, h2⟩ := h
              have h3 := ih h1
              have h4 := congrArg List.length heq
              simp only [List.length_drop, List.length_cons] at h4
              simp only [List.length_cons]
              omega
            · exact absurd h (by simp)
          · simp only [Option.map_eq_some'] at h
            obtain ⟨n', h1, h2⟩ := h
            have h3 := ih h1
            simp only [List.length_cons]
            omega

theorem tryLinkAfterBang_bounds {bang : Nat} {s1 : List Char} {len : Nat} {m : LinkMatch}
    (h : tryLinkAfterBang bang s1 = some (len, m)) :
    len = m.len ∧ len + 1 ≤ bang + s1.length + 1 ∧ bang + 2 ≤ m.g1 ∧ 1 ≤ m.tail := by
  rw [tryLinkAfterBang.eq_def] at h
  split at h
  case _ r =>
    split at h
    case _ => simp at h
    case _ textLen htb =>
      have hbody := linkTextBody_le htb
      split at h
      case _ r2 heq2 =>
        have hlen2 := congrArg List.length heq2
        simp only [List.length_drop, List.length_cons] at hlen2
        dsimp only at h
        split at h
        · rename_i r4 heq3
          have hlen3 := congrArg List.length heq3
          simp only [List.length_drop, List.length_cons] at hlen3
          have hws := countWhile_le isWsChar r2
          split at h
          · simp at h
          · obtain ⟨n, hn1, hn2, hk⟩ := angleGoK_chain h
            simp only [Option.map_eq_some'] at hk
            obtain ⟨p, hlt, hpe⟩ := hk
            obtain ⟨t1, t2⟩ := p
            obtain ⟨ht1, ht2⟩ := linkTail_bounds hlt
            simp only [List.length_drop] at ht2
            dsimp only at hpe ht1 ht2
            cases hpe
            refine ⟨?_, ?_, ?_, ?_⟩ <;>
              simp only [LinkMatch.len, List.length_cons] <;> omega
        · rename_i hne heq3
          have hlen3 := congrArg List.length heq3
          simp only [List.length_drop, List.length_cons] at hlen3
          have hws := countWhile_le isWsChar r2
          split at h
          · simp at h
          · simp only [Option.map_eq_some'] at h
            obtain ⟨p, hdt, hpe⟩ := h
            obtain ⟨d1, d2, d3⟩ := p
            obtain ⟨hd1, hd2⟩ := destStarThenTail_bounds hdt
            dsimp only at hpe hd1 hd2
            cases hpe
            refine ⟨?_, ?_, ?_, ?_⟩ <;>
              simp only [LinkMatch.len, List.length_cons] <;> omega
        · simp at h
      case _ => simp at h
  case _ => simp at h

theorem tryLink_bounds {prev : Option Char} {s : List Char} {len : Nat} {m : LinkMatch}
    (h : tryLink prev s = some (len, m)) :
    len = m.len ∧ len ≤ s.length ∧ 2 ≤ m.g1 ∧ 1 ≤ m.tail := by
  rw [tryLink.eq_def] at h
  split at h
  · simp at h
  · split at h
    case _ r =>
      obtain ⟨h1, h2, h3, h4⟩ := tryLinkAfterBang_bounds h
      simp only [List.length_cons]
      exact ⟨h1, by omega, by omega, h4⟩
    case _ =>
      obtain ⟨h1, h2, h3, h4⟩ := tryLinkAfterBang_bounds h
      exact ⟨h1, by omega, by omega, h4⟩

theorem refBody_le :
    ∀ {fuel : Nat} {s : List Char} {n : Nat}, refBody fuel s = some n → n + 1 ≤ s.length := by
  intro fuel
  induction fuel with
  | zero => intro s n h; exact absurd h (by simp [refBody])
  | succ fuel ih =>
    intro s n h
    rw [refBody.eq_def] at h
    match s, h with
    | [], h => exact absurd h (by simp)
    | c :: rest, h =>
      dsimp only at h
      split at h
      · simp only [Option.some.injEq] at h
        subst h
        simp
      · split at h
        · match rest, h with
          | [], h => exact absurd h (by simp)
          | c2 :: rest2, h =>
            dsimp only at h
            split at h
            · simp only [Option.map_eq_some'] at h
              obtain ⟨n', h1, h2⟩ := h
              have h3 := ih h1
              simp only [List.length_cons]
              omega
            · exact absurd h (by simp)
        · simp only [Option.map_eq_some'] at h
          obtain ⟨n', h1, h2⟩ := h
          have h3 := ih h1
          simp only [List.length_cons]
          omega

theorem shItem_bounds {s : List Char} {n : Nat} (h : shItem s = some n) :
    1 ≤ n ∧ n ≤ s.length := by
  rw [shItem.eq_def] at h
  match s, h with
  | [], h => exact absurd h (by simp)
  | c :: rest, h =>
    dsimp only at h
    split at h
    · match rest, h with
      | [], h => exact absurd h (by simp)
      | c2 :: rest2, h =>
        dsimp only at h
        split at h
        · simp only [Option.some.injEq] at h
          subst h
          simp only [List.length_cons]
          omega
        · exact absurd h (by simp)
    · split at h
      · exact absurd h (by simp)
      · simp only [Option.some.injEq] at h
        subst h
        simp only [List.length_cons]
        omega

theorem shGo_bounds :
    ∀ {fuel : Nat} {s : List Char} {n w : Nat},
      shGo fuel s = some (n, w) → 1 ≤ n ∧ n + w + 1 ≤ s.length := by
  intro fuel
  induction fuel with
  | zero => intro s n w h; exact absurd h (by simp [shGo])
  | succ fuel ih =>
    intro s n w h
    rw [shGo] at h
    split at h
    · exact absurd h (by simp)
    · rename_i n0 hitem
      have hib := shItem_bounds hitem
      dsimp only at h
      have hws := countWhile_le isWsChar (s.drop n0)
      simp only [List.length_drop] at hws
      split at h
      · rename_i hcl
        have hne : (s.drop n0).drop (countWhile isWsChar (s.drop n0)) ≠ [] := by
          intro he
          rw [he] at hcl
          simp at hcl
        have hlen := List.length_pos.mpr hne
        simp only [List.length_drop] at hlen
        simp only [Option.some.injEq, Prod.mk.injEq] at h
        obtain ⟨h1, h2⟩ := h
        subst h1; subst h2
        omega
      · split at h
        · rename_i m wT hrec
          have hr := ih hrec
          simp only [List.length_drop] at hr
          simp only [Option.some.injEq, Prod.mk.injEq] at h
          obtain ⟨h1, h2⟩ := h
          subst h1; subst h2
          omega
        · exact absurd h (by simp)

theorem shLead_bounds :
    ∀ {w0 : Nat} {s : List Char} {a b c : Nat},
      shLead w0 s = some (a, b, c) → a + b + c + 1 ≤ s.length := by
  intro w0
  induction w0 with
  | zero =>
    intro s a b c h
    rw [shLead] at h
    split at h
    · rename_i bb cc hgo
      have hg := shGo_bounds hgo
      simp only [List.length_drop] at hg
      simp only [Option.some.injEq, Prod.mk.injEq] at h
      obtain ⟨h1, h2, h3⟩ := h
      subst h1; subst h2; subst h3
      omega
    · exact absurd h (by simp)
  | succ w ih =>
    intro s a b c h
    rw [shLead] at h
    split at h
    · rename_i bb cc hgo
      have hg := shGo_bounds hgo
      simp only [List.length_drop] at hg
      simp only [Option.some.injEq, Prod.mk.injEq] at h
      obtain ⟨h1, h2, h3⟩ := h
      subst h1; subst h2; subst h3
      omega
    · exact ih h

theorem tryRefText_bounds {bang : Bool} {s1 : List Char} {len : Nat} {m : RefAlt}
    (h : tryRefText bang s1 = some (len, m)) :
    len ≤ bang.toNat + s1.length ∧ 1 ≤ len := by
  rw [tryRefText.eq_def] at h
  split at h
  case _ r =>
    split at h
    case _ => simp at h
    case _ textLen htb =>
      have hbody := linkTextBody_le htb
      split at h
      case _ r2 heq2 =>
        have hlen2 := congrArg List.length heq2
        simp only [List.length_drop, List.length_cons] at hlen2
        dsimp only at h
        split at h
        case _ => simp at h
        case _ refLen hrb =>
          have hrl := refBody_le hrb
          simp only [List.length_drop] at hrl
          have hws := countWhile_le isWsChar r2
          split at h
          · simp at h
          · simp only [Option.some.injEq, Prod.mk.injEq] at h
            obtain ⟨h1, h2⟩ := h
            subst h1
            simp only [RefAlt.len, List.length_cons]
            cases bang <;> simp only [Bool.toNat] <;> simp <;> omega
      case _ => simp at h
  case _ => simp at h

theorem tryRef_bounds {prev : Option Char} {s : List Char} {len : Nat} {a : RefAlt}
    (h : tryRef prev s = some (len, a)) : len ≤ s.length ∧ 1 ≤ len := by
  rw [tryRef.eq_def] at h
  split at h
  · exact absurd h (by simp)
  · dsimp only at h
    split at h
    · rename_i r1 heq1
      simp only [Option.some.injEq] at h
      obtain ⟨pl, pm⟩ := r1
      simp only [Prod.mk.injEq] at h
      obtain ⟨h1, h2⟩ := h
      subst h1
      split at heq1
      case _ r =>
        have hb := tryRefText_bounds heq1
        simp only [Bool.toNat_true] at hb
        simp only [List.length_cons]
        omega
      case _ =>
        have hb := tryRefText_bounds heq1
        simp only [Bool.toNat_false] at hb
        omega
    · split at h
      case _ r =>
        split at h
        · exact absurd h (by simp)
        · split at h
          · exact absurd h (by simp)
          · rename_i w0 c wT hsl
            have hb := shLead_bounds hsl
            split at h
            · exact absurd h (by simp)
            · simp only [Option.some.injEq, Prod.mk.injEq] at h
              obtain ⟨h1, h2⟩ := h
              subst h1
              simp only [RefAlt.len, List.length_cons]
              omega
      case _ => exact absurd h (by simp)

theorem scanWith_mem {α : Type} {tryFn : Option Char → List Char → Option (Nat × α)}
    (P : Nat → α → Prop)
    (hp : ∀ prev s len a, tryFn prev s = some (len, a) → len ≤ s.length ∧ P len a) :
    ∀ {fuel : Nat} {prev : Option Char} {s : List Char} {idx0 : Nat}
      {hit : Nat × Nat × α}, hit ∈ scanWith tryFn fuel prev s idx0 →
      idx0 ≤ hit.1 ∧ hit.1 + hit.2.1 ≤ idx0 + s.length ∧ P hit.2.1 hit.2.2 := by
  intro fuel
  induction fuel with
  | zero =>
    intro prev s idx0 hit h
    cases s <;> simp [scanWith] at h
  | succ fuel ih =>
    intro prev s idx0 hit h
    match s with
    | [] => simp [scanWith] at h
    | c :: rest =>
      rw [scanWith] at h
      split at h
      · rename_i len a heq
        have hlb := hp _ _ _ _ heq
        dsimp only at h
        rcases List.mem_cons.mp h with hh | hh
        · subst hh
          refine ⟨le_refl _, ?_, hlb.2⟩
          simp only [List.length_cons] at hlb ⊢
          omega
        · have hm := ih hh
          simp only [List.length_drop, List.length_cons] at hm hlb ⊢
          rcases Nat.le_total len 1 with hmx | hmx
          · rw [Nat.max_eq_right hmx] at hm
            exact ⟨by omega, by omega, hm.2.2⟩
          · rw [Nat.max_eq_left hmx] at hm
            exact ⟨by omega, by omega, hm.2.2⟩
      · have hm := ih h
        simp only [List.length_cons] at hm ⊢
        exact ⟨by omega, by omega, hm.2.2⟩

theorem isBeforeOrEqual_refl (p : Pos) : p.isBeforeOrEqual p = true := by
  simp [Pos.isBeforeOrEqual]

theorem isBeforeOrEqual_translate (p : Pos) (k : Nat) :
    p.isBeforeOrEqual (translatePosition p 0 (Int.ofNat k)) = true := by
  simp only [Pos.isBeforeOrEqual, translatePosition, Bool.or_eq_true, Bool.and_eq_true,
    decide_eq_true_eq, beq_iff_eq, Int.ofNat_eq_coe]
  omega

theorem posInChars_off_translate_le :
    ∀ (cs : List Char) (off k line col : Nat), off + k ≤ cs.length →
      (translatePosition (posInChars cs off line col) 0 (Int.ofNat k)).isBeforeOrEqual
        (posInChars cs (off + k) line col) = true := by
  intro cs
  induction cs with
  | nil =>
    intro off k line col hlen
    simp only [List.length_nil, Nat.le_zero, Nat.add_eq_zero] at hlen
    obtain ⟨h1, h2⟩ := hlen
    subst h1; subst h2
    simp [posInChars, translatePosition, Pos.isBeforeOrEqual]
  | cons c rest ih =>
    intro off k line col hlen
    match off with
    | 0 =>
      rw [posInChars_zero]
      simp only [Nat.zero_add] at hlen ⊢
      match k with
      | 0 =>
        rw [posInChars_zero]
        exact isBeforeOrEqual_translate _ 0
      | k + 1 =>
        rw [posInChars_step]
        split
        · -- a newline: the target position is on a strictly later line
          have hline := posInChars_line_ge rest k (line + 1) 0
          simp only [Pos.isBeforeOrEqual, translatePosition, Bool.or_eq_true, Bool.and_eq_true,
            decide_eq_true_eq, beq_iff_eq]
          left
          omega
        · have := ih 0 k line (col + 1) (by simpa using hlen)
          rw [posInChars_zero] at this
          simp only [Nat.zero_add] at this
          simp only [Pos.isBeforeOrEqual, translatePosition, Bool.or_eq_true, Bool.and_eq_true,
            decide_eq_true_eq, beq_iff_eq, Int.ofNat_eq_coe] at this ⊢
          omega
    | off + 1 =>
      have hstep1 := posInChars_step c rest off line col
      have hstep2 := posInChars_step c rest (off + k) line col
      have harr : off + 1 + k = (off + k) + 1 := by omega
      rw [hstep1, harr, hstep2]
      split
      · exact ih off k (line + 1) 0 (by simp only [List.length_cons] at hlen; omega)
      · exact ih off k line (col + 1) (by simp only [List.length_cons] at hlen; omega)

theorem translate_positionAt_le (doc : TextDoc) {o k : Nat} (h : o + k ≤ doc.text.length) :
    (translatePosition (doc.positionAt o) 0 (Int.ofNat k)).isBeforeOrEqual
      (doc.positionAt (o + k)) = true :=
  posInChars_off_translate_le doc.text o k 0 0 h

theorem slice_length_le (cs : List Char) (a b : Nat) :
    (slice cs a b).length ≤ cs.length - a := by
  simp only [slice, List.length_take, List.length_drop]
  omega

theorem slice_length_le' (cs : List Char) (a b : Nat) :
    (slice cs a b).length ≤ b := by
  simp only [slice, List.length_take, List.length_drop]
  omega

theorem slice_length_eq {cs : List Char} {a b : Nat} (h : a + b ≤ cs.length) :
    (slice cs a b).length = b := by
  simp only [slice, List.length_take, List.length_drop]
  omega

theorem getLinkDefinitions_guarded {uriParse : UriParser} {document : TextDoc}
    {noLinkRanges : NoLinkRanges} {ws : Workspace} {l : MdLink}
    (hl : l ∈ getLinkDefinitions uriParse document noLinkRanges ws) :
    noLinkRanges.contains l.source.range.start = false := by
  rw [getLinkDefinitions] at hl
  simp only [List.mem_flatMap] at hl
  obtain ⟨hit, hmem, hl⟩ := hl
  split at hl
  · simp at hl
  · rename_i hguard
    split at hl
    · simp at hl
    · rename_i target heq
      simp only [List.mem_singleton] at hl
      subst hl
      simp only [Bool.not_eq_true] at hguard
      exact hguard

theorem getAutoLinks_guarded {uriParse : UriParser} {document : TextDoc}
    {noLinkRanges : NoLinkRanges} {ws : Workspace} {l : MdLink}
    (hl : l ∈ getAutoLinks uriParse document noLinkRanges ws) :
    noLinkRanges.contains l.source.range.start = false := by
  rw [getAutoLinks] at hl
  simp only [List.mem_flatMap] at hl
  obtain ⟨hit, hmem, hl⟩ := hl
  split at hl
  · simp at hl
  · rename_i hguard
    split at hl
    · rename_i u heq
      simp only [List.mem_singleton] at hl
      subst hl
      simp only [Bool.not_eq_true] at hguard
      exact hguard
    · simp at hl

theorem getHtmlLinksFromNode_guarded (uriParse : UriParser) (document : TextDoc)
    (noLinkRanges : NoLinkRanges) (ws : Workspace) :
    ∀ (n : HtmlNode) {l : MdLink},
      l ∈ getHtmlLinksFromNode uriParse document noLinkRanges ws n →
      noLinkRanges.contains l.source.range.start "html_block" = false := by
  intro n
  match n with
  | .mk tagName start attrs children =>
    intro l hl
    rw [getHtmlLinksFromNode] at hl
    rcases List.mem_append.mp hl with hl | hl
    · split at hl
      · simp at hl
      · rename_i attrNames heq
        simp only [List.mem_flatMap] at hl
        obtain ⟨an, han, hl⟩ := hl
        split at hl
        · simp at hl
        · rename_i off link heq2
          split at hl
          · simp at hl
          · rename_i linkTarget heq3
            split at hl
            · simp at hl
            · rename_i hguard
              simp only [List.mem_singleton] at hl
              subst hl
              simp only [Bool.not_eq_true] at hguard
              exact hguard
    · simp only [List.mem_flatMap, List.mem_attach, true_and] at hl
      obtain ⟨c, hl⟩ := hl
      exact getHtmlLinksFromNode_guarded uriParse document noLinkRanges ws c.1 hl
termination_by n => sizeOf n
decreasing_by
  have h1 := List.sizeOf_lt_of_mem c.2
  simp only [HtmlNode.mk.sizeOf_spec]
  omega

theorem getHtmlLinks_guarded {uriParse : UriParser}
    {htmlParse : List Char → List HtmlNode} {document : TextDoc}
    {noLinkRanges : NoLinkRanges} {ws : Workspace} {l : MdLink}
    (hl : l ∈ getHtmlLinks uriParse htmlParse document noLinkRanges ws) :
    noLinkRanges.contains l.source.range.start "html_block" = false := by
  rw [getHtmlLinks] at hl
  split at hl
  · simp at hl
  · simp only [List.mem_flatMap] at hl
    obtain ⟨n, hn, hl⟩ := hl
    exact getHtmlLinksFromNode_guarded uriParse document noLinkRanges ws n hl

theorem getReferenceLinksInText_guarded {document : TextDoc} {noLinkRanges : NoLinkRanges} :
    ∀ {fuel : Nat} {text : List Char} {startingOffset : Nat} {l : MdLink},
      l ∈ getReferenceLinksInText document fuel text startingOffset noLinkRanges →
      noLinkRanges.contains l.source.range.start = false := by
  intro fuel
  induction fuel with
  | zero =>
    intro text off l hl
    simp [getReferenceLinksInText] at hl
  | succ fuel ih =>
    intro text off l hl
    rw [getReferenceLinksInText] at hl
    simp only [List.mem_flatMap] at hl
    obtain ⟨hit, hmem, hl⟩ := hl
    split at hl
    · simp at hl
    · rename_i hguard
      simp only [Bool.not_eq_true] at hguard
      split at hl
      · -- the `[text][ref]` alternative
        rename_i bangv textLen wsLen refLen heq
        split at hl
        · -- `[ref][]`
          simp at hl
          obtain ⟨-, hl⟩ := hl
          subst hl
          exact hguard
        · simp at hl
          obtain ⟨-, hl⟩ := hl
          rcases hl with ⟨-, hl⟩ | hl
          · exact ih hl
          · subst hl
            exact hguard
      · -- the shorthand alternative
        rename_i w0 contentLen wT heq
        simp at hl
        obtain ⟨-, -, -, hl⟩ := hl
        subst hl
        exact hguard

theorem getReferenceLinks_guarded {document : TextDoc} {noLinkRanges : NoLinkRanges} {l : MdLink}
    (hl : l ∈ getReferenceLinks document noLinkRanges) :
    noLinkRanges.contains l.source.range.start = false :=
  getReferenceLinksInText_guarded hl

theorem createMdLink_range {u : UriParser} {d : TextDoc} {tt ph rl : List Char} {mi : Nat}
    {fm : List Char} {tm : Option (List Char)} {ws : Workspace} {L : MdLink}
    (h : createMdLink u d tt ph rl mi fm tm ws = some L) :
    L.source.range.start = d.positionAt mi ∧
      L.source.range.stop = d.positionAt (mi + fm.length) := by
  rw [createMdLink] at h
  split at h
  · simp at h
  · simp only [Option.some.injEq] at h
    subst h
    exact ⟨rfl, rfl⟩

theorem rangeContains_of_all {outer inner : Range}
    (h1 : outer.start.isBeforeOrEqual inner.start = true)
    (h2 : inner.start.isBeforeOrEqual outer.stop = true)
    (h3 : outer.start.isBeforeOrEqual inner.stop = true)
    (h4 : inner.stop.isBeforeOrEqual outer.stop = true) :
    rangeContains outer inner = true := by
  simp only [rangeContains, rangeContainsPos, Bool.and_eq_true]
  exact ⟨⟨h1, h2⟩, ⟨h3, h4⟩⟩

theorem getReferenceLinksInText_range_bounds {document : TextDoc} {noLinkRanges : NoLinkRanges} :
    ∀ {fuel : Nat} {text : List Char} {startingOffset : Nat} {l : MdLink},
      l ∈ getReferenceLinksInText document fuel text startingOffset noLinkRanges →
      ∃ a b : Nat, startingOffset ≤ a ∧ a + b ≤ startingOffset + text.length ∧
        l.source.range.start = document.positionAt a ∧
        l.source.range.stop = translatePosition (document.positionAt a) 0 (Int.ofNat b) := by
  intro fuel
  induction fuel with
  | zero =>
    intro text off l hl
    simp [getReferenceLinksInText] at hl
  | succ fuel ih =>
    intro text off l hl
    rw [getReferenceLinksInText] at hl
    simp only [List.mem_flatMap] at hl
    obtain ⟨hit, hmem, hl⟩ := hl
    have hsb := scanWith_mem (fun len _ => 1 ≤ len)
      (fun prev s len a h => ⟨(tryRef_bounds h).1, (tryRef_bounds h).2⟩) hmem
    obtain ⟨-, hb2, hbe⟩ := hsb
    have hbe2 : 1 ≤ hit.2.1 := hbe
    split at hl
    · simp at hl
    · rename_i hguard
      split at hl
      · -- the `[text][ref]` alternative
        rename_i bangv textLen wsLen refLen heq
        split at hl
        · -- `[ref][]`
          simp at hl
          obtain ⟨-, hl⟩ := hl
          subst hl
          exact ⟨off + hit.1, hit.2.1, by omega, by omega, rfl, rfl⟩
        · simp at hl
          obtain ⟨-, hl⟩ := hl
          rcases hl with ⟨-, hl⟩ | hl
          · obtain ⟨a, b, hab1, hab2, hs1, hs2⟩ := ih hl
            have hsl := slice_length_le text
              ((hit.1 + if bangv = true then 1 else 0) + 1) textLen
            exact ⟨a, b, by omega, by omega, hs1, hs2⟩
          · subst hl
            exact ⟨off + hit.1, hit.2.1, by omega, by omega, rfl, rfl⟩
      · -- the shorthand alternative
        rename_i w0 contentLen wT heq
        simp at hl
        obtain ⟨-, -, -, hl⟩ := hl
        subst hl
        exact ⟨off + hit.1, hit.2.1, by omega, by omega, rfl, rfl⟩

theorem getInlineLinks_covered {uriParse : UriParser} {document : TextDoc}
    {noLinkRanges : NoLinkRanges} {ws : Workspace} {l : MdLink}
    (hl : l ∈ getInlineLinks uriParse document noLinkRanges ws) :
    ∃ lp ∈ getInlineLinks uriParse document noLinkRanges ws,
      noLinkRanges.contains lp.source.hrefRange.start = false ∧
      rangeContains lp.source.range l.source.range = true := by
  rw [getInlineLinks] at hl
  simp only [List.mem_flatMap] at hl
  obtain ⟨hit, hmem, hl⟩ := hl
  have hsb := scanWith_mem
    (fun len m => len = LinkMatch.len m ∧ 2 ≤ m.g1 ∧ 1 ≤ m.tail)
    (fun prev s len a h => ⟨(tryLink_bounds h).2.1, (tryLink_bounds h).1,
      (tryLink_bounds h).2.2.1, (tryLink_bounds h).2.2.2⟩) hmem
  obtain ⟨-, hb2, hbP⟩ := hsb
  obtain ⟨hb3, hb4, hb5⟩ := hbP
  simp only [LinkMatch.len] at hb3
  split at hl
  · simp at hl
  · rename_i matchLinkData heqC
    split at hl
    · simp at hl
    · rename_i hguard
      simp only [Bool.not_eq_true] at hguard
      have hmemL : matchLinkData ∈ getInlineLinks uriParse document noLinkRanges ws := by
        rw [getInlineLinks]
        refine List.mem_flatMap.mpr ⟨hit, hmem, ?_⟩
        dsimp only
        rw [heqC]
        simp only [hguard, Bool.false_eq_true, if_false]
        exact List.mem_cons_self _ _
      obtain ⟨hr1, hr2⟩ := createMdLink_range heqC
      have hflen : (slice document.text hit.1 hit.2.1).length = hit.2.1 :=
        slice_length_eq (by omega)
      rw [hflen] at hr2
      have hltlen :
          ((List.drop 1 (slice document.text hit.1 hit.2.2.g1)).dropLast).length =
            (slice document.text hit.1 hit.2.2.g1).length - 1 - 1 := by
        simp
      have hg1len := slice_length_le' document.text hit.1 hit.2.2.g1
      refine ⟨matchLinkData, hmemL, hguard, ?_⟩
      rcases List.mem_cons.mp hl with hl | hl
      · subst hl
        refine rangeContains_of_all ?_ ?_ ?_ ?_ <;> simp only [hr1, hr2]
        · exact isBeforeOrEqual_refl _
        · exact positionAt_mono document (by omega)
        · exact positionAt_mono document (by omega)
        · exact isBeforeOrEqual_refl _
      · split at hl
        · rcases List.mem_append.mp hl with hl | hl
          · -- an inner image link
            simp only [List.mem_flatMap] at hl
            obtain ⟨ih2, hmem2, hl⟩ := hl
            have hsb2 := scanWith_mem
              (fun len m => len = LinkMatch.len m ∧ 2 ≤ m.g1 ∧ 1 ≤ m.tail)
              (fun prev s len a h => ⟨(tryLink_bounds h).2.1, (tryLink_bounds h).1,
                (tryLink_bounds h).2.2.1, (tryLink_bounds h).2.2.2⟩) hmem2
            obtain ⟨-, hc2, -⟩ := hsb2
            rw [hltlen] at hc2
            split at hl
            · rename_i innerData heqC2
              simp only [List.mem_singleton] at hl
              subst hl
              obtain ⟨hs1, hs2⟩ := createMdLink_range heqC2
              have hislen := slice_length_le'
                ((List.drop 1 (slice document.text hit.1 hit.2.2.g1)).dropLast) ih2.1 ih2.2.1
              refine rangeContains_of_all ?_ ?_ ?_ ?_ <;> simp only [hr1, hr2, hs1, hs2] <;>
                exact positionAt_mono document (by omega)
            · simp at hl
          · -- an inner reference link
            obtain ⟨a, b, hab1, hab2, hs1, hs2⟩ := getReferenceLinksInText_range_bounds hl
            rw [hltlen] at hab2
            refine rangeContains_of_all ?_ ?_ ?_ ?_ <;> simp only [hr1, hr2, hs1, hs2]
            · exact positionAt_mono document (by omega)
            · exact positionAt_mono document (by omega)
            · exact isBeforeOrEqual_trans (positionAt_mono document (show hit.1 ≤ a by omega))
                (isBeforeOrEqual_translate _ _)
            · exact isBeforeOrEqual_trans (translate_positionAt_le document (by omega))
                (positionAt_mono document (by omega))
        · simp at hl

/-! ## Claim theorems -/


/-- C2: the claim states that for every link produced by `getAllLinks` the
`source.range` contains `source.hrefRange`.  The code violates this: on
the document `[a]: <b\nc>` (a link definition whose angle-bracket target
spans two lines, which `definitionPattern`'s `[^<>]` class admits), the
definitions pass computes `source.range` from the first line only but
`hrefRange` by a character offset that runs past the end of that line, so
the produced link has `range` (0,0)-(0,7) and `hrefRange` (0,5)-(0,10),
and the containment fails.  This theorem evaluates the code at the
failing input. -/
theorem C2_multiline_definition_breaks_range_nesting :
    (allLinksOf "[a]: <b\nc>").map
        (fun l => (l.kind, l.source.range, l.source.hrefRange)) =
      [(.definition, mkRange 0 0 0 7, mkRange 0 5 0 10)] ∧
    (allLinksOf "[a]: <b\nc>").all
        (fun l => rangeContains l.source.range l.source.hrefRange) = false := by
  decide

/-- C8: a bare bracketed shorthand forming a task-list checkbox marker at
the start of a list item (`- [x]`, `- [X]`, `- [ ]` and the `*`/`+` bullet
variants) never produces a link, but a second bracketed construct later on
the same line still does: for `- [x] [x]` with a definition for `x`,
exactly one reference link is produced on that line, for the second
bracket. -/
theorem C8_checkbox_markers_never_links :
    (allLinksOf "- [x]\n- [X]\n- [ ]\n* [x]\n* [X]\n* [ ]\n+ [x]\n+ [X]\n+ [ ]\n\n[x]: http://example.com").map
        (fun l => (l.kind, l.source.hrefRange)) =
      [(.definition, mkRange 10 5 10 23)] ∧
    (allLinksOf "- [x] [x]\n\n[x]: http://example.com").map
        (fun l => (l.kind, l.href, l.source.hrefRange)) =
      [(.link, .reference "x".data, mkRange 0 7 0 8),
       (.definition, .external ⟨"http", "//example.com"⟩, mkRange 2 5 2 23)] := by
  decide

/-- C10: a `[text][ref]` construct with an empty text portion produces a
link only for an image reference (`![][ref]`); a non-image `[][ref]` and
`[][]` produce no link, and a `[text][]` or bare `[shorthand]` whose
bracketed content trims to the empty string produces no link. -/
theorem C10_empty_reference_links :
    allLinksOf "[][]" = [] ∧
    allLinksOf "[][cat]" = [] ∧
    (allLinksOf "![][cat]").map (fun l => (l.kind, l.href, l.source.hrefRange)) =
      [(.link, .reference "cat".data, mkRange 0 4 0 7)] ∧
    allLinksOf "[ ][]" = [] ∧
    allLinksOf "[ ]" = [] := by
  decide

/-- C3 (counterexample): the claim states that `getAllLinks` never produces a
link whose start position lies inside an excluded code region (fenced or
indented code block, HTML comment, or inline code span).  The code violates
this in the inline pass, which checks only the href start against the
excluded ranges: on the document `` `[b`](x) `` the inline code span is
(0,0)-(0,4) (the opening backtick run of length one is closed by exactly
one backtick), yet an inline link is produced whose range starts at (0,1),
inside that span. -/
theorem C3_link_start_inside_inline_code :
    (NoLinkRanges.compute [] (mdDoc "`[b`](x)")).inline = [mkRange 0 0 0 4] ∧
    (allLinksOf "`[b`](x)").map (fun l => l.source.range) = [mkRange 0 1 0 8] ∧
    (allLinksOf "`[b`](x)").any (fun l =>
      (NoLinkRanges.compute [] (mdDoc "`[b`](x)")).contains l.source.range.start) = true := by
  decide

/-- C3 (amended): `getAllLinks` is the concatenation of the five scanning
passes over the no-link ranges computed from the block tokens and the
inline-code matches; every link of the reference pass has its start outside
the no-link ranges (augmented with the inline links' ranges), every link of
the definition and auto-link passes has its start outside the no-link
ranges, every link of the HTML pass has its start outside the no-link
ranges with `html_block` spans not excluded, and every link of the inline
pass lies within the range of an inline-pass link whose href start is
outside the no-link ranges (the pass checks the href start of a top-level
link and reports links nested in its text unconditionally). -/
theorem C3_code_region_guards (uriParse : UriParser) (tokens : List Token)
    (htmlParse : List Char → List HtmlNode) (document : TextDoc) (ws : Workspace)
    (nlr : NoLinkRanges) (hnlr : nlr = NoLinkRanges.compute tokens document)
    (inl : List MdLink) (hinl : inl = getInlineLinks uriParse document nlr ws)
    (nlr2 : NoLinkRanges)
    (hnlr2 : nlr2 = nlr.concatInline (inl.map (fun x => x.source.range))) :
    getAllLinks uriParse tokens htmlParse document ws =
        inl ++ getReferenceLinks document nlr2 ++
          getLinkDefinitions uriParse document nlr ws ++
          getAutoLinks uriParse document nlr ws ++
          getHtmlLinks uriParse htmlParse document nlr ws ∧
      (∀ l ∈ getReferenceLinks document nlr2, nlr2.contains l.source.range.start = false) ∧
      (∀ l ∈ getLinkDefinitions uriParse document nlr ws,
        nlr.contains l.source.range.start = false) ∧
      (∀ l ∈ getAutoLinks uriParse document nlr ws, nlr.contains l.source.range.start = false) ∧
      (∀ l ∈ getHtmlLinks uriParse htmlParse document nlr ws,
        nlr.contains l.source.range.start "html_block" = false) ∧
      (∀ l ∈ inl, ∃ lp ∈ inl,
        nlr.contains lp.source.hrefRange.start = false ∧
        rangeContains lp.source.range l.source.range = true) := by
  subst hnlr2
  subst hinl
  subst hnlr
  refine ⟨rfl, ?_, ?_, ?_, ?_, ?_⟩
  · intro l hl
    exact getReferenceLinks_guarded hl
  · intro l hl
    exact getLinkDefinitions_guarded hl
  · intro l hl
    exact getAutoLinks_guarded hl
  · intro l hl
    exact getHtmlLinks_guarded hl
  · intro l hl
    exact getInlineLinks_covered hl

/-- Witness for the amended C3: the pass decomposition of `getAllLinks`
holds at a concrete document. -/
theorem C3_code_region_guards_witness :
    getAllLinks modelUriParse [] emptyHtmlParse (mdDoc "`[b`](x)") sampleWorkspace =
      getInlineLinks modelUriParse (mdDoc "`[b`](x)")
          (NoLinkRanges.compute [] (mdDoc "`[b`](x)")) sampleWorkspace ++
        getReferenceLinks (mdDoc "`[b`](x)")
          ((NoLinkRanges.compute [] (mdDoc "`[b`](x)")).concatInline
            ((getInlineLinks modelUriParse (mdDoc "`[b`](x)")
                (NoLinkRanges.compute [] (mdDoc "`[b`](x)")) sampleWorkspace).map
              (fun x => x.source.range))) ++
        getLinkDefinitions modelUriParse (mdDoc "`[b`](x)")
          (NoLinkRanges.compute [] (mdDoc "`[b`](x)")) sampleWorkspace ++
        getAutoLinks modelUriParse (mdDoc "`[b`](x)")
          (NoLinkRanges.compute [] (mdDoc "`[b`](x)")) sampleWorkspace ++
        getHtmlLinks modelUriParse emptyHtmlParse (mdDoc "`[b`](x)")
          (NoLinkRanges.compute [] (mdDoc "`[b`](x)")) sampleWorkspace :=
  (C3_code_region_guards modelUriParse [] emptyHtmlParse (mdDoc "`[b`](x)") sampleWorkspace
    _ rfl _ rfl _ rfl).1

theorem countWhile_take_all (p : Char → Bool) :
    ∀ (s : List Char), ∀ c ∈ s.take (countWhile p s), p c = true := by
  intro s
  induction s with
  | nil => intro c hc; simp at hc
  | cons x rest ih =>
    intro c hc
    simp only [countWhile] at hc
    by_cases hx : p x = true
    · rw [if_pos hx] at hc
      simp only [List.take_succ_cons, List.mem_cons] at hc
      rcases hc with hc | hc
      · subst hc; exact hx
      · exact ih c hc
    · rw [if_neg hx] at hc
      simp at hc

theorem countWhile_append_all {p : Char → Bool} :
    ∀ {pre t : List Char}, (∀ c ∈ pre, p c = true) →
      countWhile p (pre ++ t) = pre.length + countWhile p t := by
  intro pre
  induction pre with
  | nil => intro t h; simp
  | cons x rest ih =>
    intro t h
    have hx : p x = true := h x (by simp)
    simp only [List.cons_append, countWhile, if_pos hx, List.length_cons, List.append_eq]
    rw [ih (fun c hc => h c (by simp [hc]))]
    omega

theorem looksLikeUriScheme_iff (s : List Char) :
    looksLikeUriScheme s = true ↔ IsSchemePrefixed s := by
  constructor
  · intro h
    simp only [looksLikeUriScheme, Bool.and_eq_true, decide_eq_true_eq, beq_iff_eq] at h
    obtain ⟨hk, hcol⟩ := h
    refine ⟨s.take (countWhile (fun c =>
      ('a' ≤ c && c ≤ 'z') || ('A' ≤ c && c ≤ 'Z') || c == '-') s), ?_, ?_, ?_, ?_⟩
    · exact s.drop (countWhile (fun c =>
        ('a' ≤ c && c ≤ 'z') || ('A' ≤ c && c ≤ 'Z') || c == '-') s + 1)
    · -- `s = take k ++ ':' :: drop (k+1)`
      conv_lhs => rw [← List.take_append_drop (countWhile (fun c =>
        ('a' ≤ c && c ≤ 'z') || ('A' ≤ c && c ≤ 'Z') || c == '-') s) s]
      congr 1
      cases hd : s.drop (countWhile (fun c =>
          ('a' ≤ c && c ≤ 'z') || ('A' ≤ c && c ≤ 'Z') || c == '-') s) with
      | nil => rw [hd] at hcol; simp at hcol
      | cons x t =>
        rw [hd] at hcol
        simp only [List.head?_cons, Option.some.injEq] at hcol
        subst hcol
        have ht : t = s.drop (countWhile (fun c =>
            ('a' ≤ c && c ≤ 'z') || ('A' ≤ c && c ≤ 'Z') || c == '-') s + 1) := by
          have := congrArg List.tail hd
          simpa [List.tail_drop] using this.symm
        rw [ht]
    · -- the prefix has length `k ≥ 2`
      have hlen : countWhile (fun c =>
          ('a' ≤ c && c ≤ 'z') || ('A' ≤ c && c ≤ 'Z') || c == '-') s ≤ s.length :=
        countWhile_le _ s
      simp only [List.length_take]
      omega
    · intro c hc
      have := countWhile_take_all (fun c =>
        ('a' ≤ c && c ≤ 'z') || ('A' ≤ c && c ≤ 'Z') || c == '-') s c hc
      simpa [Bool.or_eq_true, Bool.and_eq_true, decide_eq_true_eq, beq_iff_eq, or_assoc]
        using this
  · rintro ⟨pre, rest, hs, hlen, hall⟩
    subst hs
    have hall2 : ∀ c ∈ pre, (('a' ≤ c && c ≤ 'z') || ('A' ≤ c && c ≤ 'Z') || c == '-') = true := by
      intro c hc
      have := hall c hc
      simpa [Bool.or_eq_true, Bool.and_eq_true, decide_eq_true_eq, beq_iff_eq, or_assoc]
        using this
    have hcw : countWhile (fun c =>
        ('a' ≤ c && c ≤ 'z') || ('A' ≤ c && c ≤ 'Z') || c == '-') (pre ++ ':' :: rest) =
        pre.length := by
      rw [countWhile_append_all hall2]
      simp [countWhile]
    simp only [looksLikeUriScheme, hcw, Bool.and_eq_true, decide_eq_true_eq, beq_iff_eq]
    constructor
    · exact hlen
    · rw [List.drop_left]
      rfl

/-- C6: `createHref` treats exactly the texts with a two-or-more
letter/hyphen scheme prefix (the spec's classification rule, equivalent to
the code's test) as external — producing the parsed URI, or nothing when
the external URI parser fails — and resolves every other text as an
internal document-relative path; a malformed external href drops only the
one link while the scan of the rest of the document continues (on
`[a](-a:b) [b](c)` the first link's URI fails to parse and only the second
link is produced). -/
theorem C6_scheme_classification :
    (∀ s : List Char, looksLikeUriScheme s = true ↔ IsSchemePrefixed s) ∧
    (∀ (uriParse : UriParser) (sourceDocUri : Uri) (link : List Char) (ws : Workspace),
      looksLikeUriScheme link = true →
        createHref uriParse sourceDocUri link ws =
          (uriParse (String.mk (tryDecodeUri link))).map Href.external) ∧
    (∀ (uriParse : UriParser) (sourceDocUri : Uri) (link : List Char) (ws : Workspace),
      looksLikeUriScheme link = false →
        createHref uriParse sourceDocUri link ws =
          (resolveInternalDocumentLink sourceDocUri link ws).map
            (fun p => Href.internal p.1 p.2)) ∧
    (allLinksOf "[a](-a:b) [b](c)").map (fun l => (l.kind, l.href)) =
      [(.link, .internal (fileUri ["workspace", "c"]) [])] := by
  refine ⟨looksLikeUriScheme_iff, ?_, ?_, by decide⟩
  · intro u su link ws h
    simp only [createHref, h, if_true]
    cases hu : u (String.mk (tryDecodeUri link)) <;> rfl
  · intro u su link ws h
    simp only [createHref, h, Bool.false_eq_true, if_false]
    cases hr : resolveInternalDocumentLink su link ws
    · rfl
    · rename_i p
      cases p
      rfl

/-- Witness for C6 at concrete inputs: `http://example.com` is classified
and parsed as external, `doc.md` is resolved internally. -/
theorem C6_scheme_classification_witness :
    (looksLikeUriScheme "http://example.com".data = true ↔
      IsSchemePrefixed "http://example.com".data) ∧
    createHref modelUriParse (fileUri ["workspace", "test.md"]) "http://example.com".data
        sampleWorkspace =
      (modelUriParse (String.mk (tryDecodeUri "http://example.com".data))).map Href.external ∧
    createHref modelUriParse (fileUri ["workspace", "test.md"]) "doc.md".data sampleWorkspace =
      (resolveInternalDocumentLink (fileUri ["workspace", "test.md"]) "doc.md".data
          sampleWorkspace).map (fun p => Href.internal p.1 p.2) :=
  ⟨C6_scheme_classification.1 _,
   C6_scheme_classification.2.1 _ _ _ _ (by decide),
   C6_scheme_classification.2.2.1 _ _ _ _ (by decide)⟩

theorem chainRanges_cons (sr : SelRange) : ∃ t, chainRanges sr = sr.range :: t := by
  match sr with
  | .mk r none => exact ⟨[], rfl⟩
  | .mk r (some p) => exact ⟨chainRanges p, rfl⟩

theorem mkSel_noAdj {r : Range} {p? : Option SelRange} (hp : optSelNoAdj p? = true) :
    selNoAdj (makeSelectionRange r p?) = true := by
  match p? with
  | none => simp [makeSelectionRange, selNoAdj, chainRanges, noAdjacentEqual]
  | some p =>
    simp only [optSelNoAdj] at hp
    simp only [makeSelectionRange]
    split
    · exact hp
    · rename_i hne
      obtain ⟨t, ht⟩ := chainRanges_cons p
      simp only [selNoAdj, chainRanges, ht, noAdjacentEqual, Bool.and_eq_true,
        Bool.not_eq_true'] at hp ⊢
      refine ⟨?_, ?_⟩
      · simp only [areRangesEqual, beq_iff_eq] at hne ⊢
        simp only [beq_eq_false_iff_ne, ne_eq]
        intro hre
        exact hne (congrArg id hre).symm
      · simpa [selNoAdj, ht, noAdjacentEqual] using hp

theorem mkSel_noAdj_some {r : Range} {p : SelRange} (hp : selNoAdj p = true) :
    selNoAdj (makeSelectionRange r (some p)) = true :=
  mkSel_noAdj (by simpa [optSelNoAdj] using hp)

theorem mkSel_noAdj_none {r : Range} : selNoAdj (makeSelectionRange r none) = true :=
  mkSel_noAdj (by simp [optSelNoAdj])

theorem createFencedRange_noAdj {tm : String × Int × Int} {cursorLine : Int}
    {document : TextDoc} {p? : Option SelRange} (hp : optSelNoAdj p? = true) :
    selNoAdj (createFencedRange tm cursorLine document p?) = true := by
  rw [createFencedRange.eq_def]
  dsimp only
  repeat' split
  all_goals first
    | exact mkSel_noAdj_some (mkSel_noAdj hp)
    | exact mkSel_noAdj hp
    | exact mkSel_noAdj_none
    | simpa [optSelNoAdj] using hp

theorem createBlockRange_noAdj {tm : String × Int × Int} {document : TextDoc}
    {cursorLine : Int} {p? : Option SelRange} (hp : optSelNoAdj p? = true) :
    selNoAdj (createBlockRange tm document cursorLine p?) = true := by
  rw [createBlockRange.eq_def]
  split
  · exact createFencedRange_noAdj hp
  · dsimp only
    repeat' split
    all_goals first
      | exact mkSel_noAdj hp
      | exact mkSel_noAdj_none
      | simpa [optSelNoAdj] using hp

theorem blockFold_noAdj {document : TextDoc} {cursorLine : Int} :
    ∀ (l : List (String × Int × Int)) (cur : SelRange), selNoAdj cur = true →
      selNoAdj (l.foldl (fun cur t => createBlockRange t document cursorLine (some cur)) cur) =
        true := by
  intro l
  induction l with
  | nil => intro cur h; exact h
  | cons t rest ih =>
    intro cur h
    exact ih _ (createBlockRange_noAdj (by simpa [optSelNoAdj] using h))

theorem getBlockSelectionRange_noAdj {tokens : List Token} {document : TextDoc} {position : Pos}
    {p? : Option SelRange} (hp : optSelNoAdj p? = true) :
    optSelNoAdj (getBlockSelectionRange tokens document position p?) = true := by
  rw [getBlockSelectionRange.eq_def]
  dsimp only
  repeat' split
  all_goals first
    | rfl
    | (simp only [optSelNoAdj] at hp ⊢
       exact blockFold_noAdj _ _ hp)
    | (simp only [optSelNoAdj]
       exact blockFold_noAdj _ _ (createBlockRange_noAdj (by rfl)))

theorem createHeaderRange_noAdj {header : TocEntry} {c o : Bool} {p? : Option SelRange}
    {soc : Option Pos} (hp : optSelNoAdj p? = true) :
    selNoAdj (createHeaderRange header c o p? soc) = true := by
  rw [createHeaderRange.eq_def]
  dsimp only
  repeat' split
  all_goals first
    | exact mkSel_noAdj hp
    | exact mkSel_noAdj_some (mkSel_noAdj hp)
    | exact mkSel_noAdj_some (mkSel_noAdj_some (mkSel_noAdj hp))

theorem headerLoop_noAdj {document : TextDoc} {toc : List TocEntry} {o : Bool} :
    ∀ (l : List TocEntry) (cur : Option SelRange), optSelNoAdj cur = true →
      optSelNoAdj (headerLoop document toc o l cur) = true := by
  intro l
  induction l with
  | nil => intro cur h; exact h
  | cons h rest ih =>
    intro cur hc
    rw [headerLoop]
    exact ih _ (by simpa [optSelNoAdj] using createHeaderRange_noAdj hc)

theorem getHeaderSelectionRange_noAdj {toc : List TocEntry} {document : TextDoc}
    {position : Pos} :
    optSelNoAdj (getHeaderSelectionRange toc document position) = true := by
  rw [getHeaderSelectionRange]
  exact headerLoop_noAdj _ _ (by simp [optSelNoAdj])

theorem createBoldRange_noAdj {lineText : List Char} {cursorChar : Int} {cursorLine : Int}
    {p? : Option SelRange} (hp : optSelNoAdj p? = true) :
    optSelNoAdj (createBoldRange lineText cursorChar cursorLine p?) = true := by
  rw [createBoldRange.eq_def]
  dsimp only
  repeat' split
  all_goals first
    | rfl
    | exact mkSel_noAdj hp
    | exact mkSel_noAdj_some (mkSel_noAdj hp)

theorem createOtherInlineRange_noAdj {lineText : List Char} {cursorChar : Int}
    {cursorLine : Int} {b : Bool} {p? : Option SelRange} (hp : optSelNoAdj p? = true) :
    optSelNoAdj (createOtherInlineRange lineText cursorChar cursorLine b p?) = true := by
  rw [createOtherInlineRange.eq_def]
  dsimp only
  repeat' split
  all_goals first
    | rfl
    | exact mkSel_noAdj hp
    | exact mkSel_noAdj_some (mkSel_noAdj hp)

theorem createLinkRange_noAdj {document : TextDoc} {cursorPos : Pos} {p? : Option SelRange}
    {allLinks : List MdLink} (hp : optSelNoAdj p? = true) :
    optSelNoAdj (createLinkRange document cursorPos p? allLinks) = true := by
  rw [createLinkRange.eq_def]
  dsimp only
  repeat' split
  all_goals first
    | rfl
    | exact mkSel_noAdj hp
    | exact mkSel_noAdj_some (mkSel_noAdj hp)
    | exact mkSel_noAdj_some (mkSel_noAdj_some (mkSel_noAdj hp))
    | exact mkSel_noAdj_some (mkSel_noAdj_some (mkSel_noAdj_some (mkSel_noAdj hp)))
    | exact mkSel_noAdj_some
        (mkSel_noAdj_some (mkSel_noAdj_some (mkSel_noAdj_some (mkSel_noAdj hp))))

theorem optOr_noAdj {a b : Option SelRange} (ha : optSelNoAdj a = true)
    (hb : optSelNoAdj b = true) : optSelNoAdj (optOr a b) = true := by
  match a with
  | some x => exact ha
  | none => exact hb

theorem comboSelectionOf_noAdj {lineText : List Char} {cursorChar cursorLine : Int}
    {b? i? : Option SelRange} (hb : optSelNoAdj b? = true) (hi : optSelNoAdj i? = true) :
    optSelNoAdj (comboSelectionOf lineText cursorChar cursorLine b? i?) = true := by
  rw [comboSelectionOf.eq_def]
  split
  · rename_i b i
    split
    · split
      · exact createOtherInlineRange_noAdj (by simpa [optSelNoAdj] using hb)
      · split
        · exact createBoldRange_noAdj (by simpa [optSelNoAdj] using hi)
        · simp [optSelNoAdj]
    · simp [optSelNoAdj]
  · simp [optSelNoAdj]

theorem createInlineRange_noAdj {document : TextDoc} {cursorPosition : Pos}
    {p? : Option SelRange} {allLinks : List MdLink} (hp : optSelNoAdj p? = true) :
    optSelNoAdj (createInlineRange document cursorPosition p? allLinks) = true := by
  rw [createInlineRange]
  have hb := @createBoldRange_noAdj (document.getLine cursorPosition.line)
    cursorPosition.character cursorPosition.line p? hp
  have hi := @createOtherInlineRange_noAdj (document.getLine cursorPosition.line)
    cursorPosition.character cursorPosition.line true p? hp
  have hc := @comboSelectionOf_noAdj (document.getLine cursorPosition.line)
    cursorPosition.character cursorPosition.line _ _ hb hi
  have hl := @createLinkRange_noAdj document cursorPosition _ allLinks
    (optOr_noAdj hc (optOr_noAdj hb (optOr_noAdj hi hp)))
  exact optOr_noAdj (createOtherInlineRange_noAdj (optOr_noAdj hl hp))
    (optOr_noAdj hl (optOr_noAdj hc (optOr_noAdj hb hi)))

theorem provideSelectionRange_noAdj {uriParse : UriParser} {tokens : List Token}
    {htmlParse : List Char → List HtmlNode} {toc : List TocEntry} {document : TextDoc}
    {ws : Workspace} {position : Pos} :
    optSelNoAdj (provideSelectionRange uriParse tokens htmlParse toc document ws position) =
      true := by
  rw [provideSelectionRange]
  have hh := @getHeaderSelectionRange_noAdj toc document position
  have hbk := @getBlockSelectionRange_noAdj tokens document position _ hh
  exact optOr_noAdj (createInlineRange_noAdj hbk) (optOr_noAdj hbk hh)

/-- C7 (counterexample): the claim states that along every selection-range
chain each node's range is contained in its parent's range.  The code
violates this: on the single-paragraph document `` `[b`](x) `` with the
cursor at (0,2), the chain runs from the inline-code content (0,1)-(0,3)
through the code span with backticks (0,0)-(0,4) to the link-text range
(0,2)-(0,4) — and (0,0)-(0,4) is not contained in (0,2)-(0,4). -/
theorem C7_chain_containment_fails :
    (provideSelectionRange modelUriParse paragraphTokens emptyHtmlParse [] (mdDoc "`[b`](x)")
        sampleWorkspace ⟨0, 2⟩).map chainRanges =
      some [mkRange 0 1 0 3, mkRange 0 0 0 4, mkRange 0 2 0 4, mkRange 0 1 0 8,
        mkRange 0 0 0 8] ∧
    rangeContains (mkRange 0 2 0 4) (mkRange 0 0 0 4) = false := by
  decide

/-- C7 (amended): along every selection-range chain returned by
`provideSelectionRange`, no node's range equals its parent's range (every
node is built by `makeSelectionRange`, which replaces a new range equal to
its computed parent by that parent); and for the single-paragraph document
`Hello` with the cursor inside the word, the chain is exactly one range,
the word span (0,0)-(0,5). -/
theorem C7_chain_no_adjacent_equal :
    (∀ (uriParse : UriParser) (tokens : List Token)
      (htmlParse : List Char → List HtmlNode) (toc : List TocEntry) (document : TextDoc)
      (ws : Workspace) (position : Pos) (sr : SelRange),
      provideSelectionRange uriParse tokens htmlParse toc document ws position = some sr →
      noAdjacentEqual (chainRanges sr) = true) ∧
    (provideSelectionRange modelUriParse paragraphTokens emptyHtmlParse [] (mdDoc "Hello")
        sampleWorkspace ⟨0, 2⟩).map chainRanges = some [mkRange 0 0 0 5] := by
  constructor
  · intro uriParse tokens htmlParse toc document ws position sr h
    have h2 := @provideSelectionRange_noAdj uriParse tokens htmlParse toc document ws position
    rw [h] at h2
    simpa [optSelNoAdj, selNoAdj] using h2
  · decide

/-- Witness for C7: the no-adjacent-equal invariant evaluated on the
concrete chain produced for `` `[b`](x) `` at (0,2). -/
theorem C7_chain_no_adjacent_equal_witness :
    noAdjacentEqual [mkRange 0 1 0 3, mkRange 0 0 0 4, mkRange 0 2 0 4, mkRange 0 1 0 8,
      mkRange 0 0 0 8] = true := by
  have h := C7_chain_no_adjacent_equal.1 modelUriParse paragraphTokens emptyHtmlParse []
    (mdDoc "`[b`](x)") sampleWorkspace ⟨0, 2⟩
    (SelRange.mk (mkRange 0 1 0 3) (some (SelRange.mk (mkRange 0 0 0 4)
      (some (SelRange.mk (mkRange 0 2 0 4) (some (SelRange.mk (mkRange 0 1 0 8)
        (some (SelRange.mk (mkRange 0 0 0 8) none)))))))))
    (by rfl)
  simpa [chainRanges] using h

/-- C5: when the resolved target is a plain existing file (not a directory,
not notebook-embedded) and the fragment is not an explicit line/column
token, `resolveLinkTarget`'s fragment step returns a `file` target
positioned at the start of the header whose assigned slug is exactly the
fragment when the target document's table of contents has one, and a
`file` target with no position when no header matches; on the concrete
fixture, `./x.md#heading` resolves to `/workspace/x.md` at the `heading`
header's start (4,0), and `./x.md#nope` resolves to `/workspace/x.md` with
no position. -/
theorem C5_resolve_link_target_heading :
    (∀ (tocOf : TextDoc → List TocEntry) (ws : Workspace) (target : Uri)
      (frag : List Char) (st : WsEntry) (d : TextDoc) (e : TocEntry),
      ws.getContainingDocument target = none →
      ws.stat target = some st →
      st.isDirectory = false →
      frag.isEmpty = false →
      parseLocationInfoFromFragment frag = none →
      ws.openMarkdownDocument target = some d →
      tocLookupByFragment (tocOf d) frag = some e →
      resolveInternalLinkTarget tocOf ws target frag =
        .file e.uri (some e.headerRange.start) (some frag)) ∧
    (∀ (tocOf : TextDoc → List TocEntry) (ws : Workspace) (target : Uri)
      (frag : List Char) (st : WsEntry) (d : TextDoc),
      ws.getContainingDocument target = none →
      ws.stat target = some st →
      st.isDirectory = false →
      frag.isEmpty = false →
      parseLocationInfoFromFragment frag = none →
      ws.openMarkdownDocument target = some d →
      tocLookupByFragment (tocOf d) frag = none →
      resolveInternalLinkTarget tocOf ws target frag = .file target none none) ∧
    resolveLinkTarget modelUriParse c5TocOf c5Workspace "./x.md#heading".data
        (fileUri ["workspace", "doc.md"]) =
      some (.file (fileUri ["workspace", "x.md"]) (some ⟨4, 0⟩) (some "heading".data)) ∧
    resolveLinkTarget modelUriParse c5TocOf c5Workspace "./x.md#nope".data
        (fileUri ["workspace", "doc.md"]) =
      some (.file (fileUri ["workspace", "x.md"]) none none) := by
  refine ⟨?_, ?_, by decide, by decide⟩
  · intro tocOf ws target frag st d e h1 h2 h3 h4 h5 h6 h7
    rw [resolveInternalLinkTarget, h1, h2]
    dsimp only
    rw [h3]
    simp only [Bool.false_eq_true, if_false]
    rw [resolveFragStep, h4]
    simp only [Bool.false_eq_true, if_false]
    rw [h5]
    dsimp only
    rw [h6]
    dsimp only
    rw [h7]
  · intro tocOf ws target frag st d h1 h2 h3 h4 h5 h6 h7
    rw [resolveInternalLinkTarget, h1, h2]
    dsimp only
    rw [h3]
    simp only [Bool.false_eq_true, if_false]
    rw [resolveFragStep, h4]
    simp only [Bool.false_eq_true, if_false]
    rw [h5]
    dsimp only
    rw [h6]
    dsimp only
    rw [h7]

/-- Witness for C5: the fragment-lookup branch evaluated on the concrete
fixture workspace. -/
theorem C5_resolve_link_target_heading_witness :
    resolveInternalLinkTarget c5TocOf c5Workspace (fileUri ["workspace", "x.md"])
        "heading".data =
      .file c5Entry.uri (some c5Entry.headerRange.start) (some "heading".data) :=
  C5_resolve_link_target_heading.1 c5TocOf c5Workspace (fileUri ["workspace", "x.md"])
    "heading".data ⟨fileUri ["workspace", "x.md"], false⟩
    { uri := fileUri ["workspace", "x.md"], version := 0, text := [] } c5Entry
    (by decide) (by decide) (by decide) (by decide) (by decide) (by decide) (by decide)

/-- C4: a batch rename of a Markdown file rewrites the relative internal
links inside it: fragment-only (`#...`) and root-absolute (`/...`) href
texts contribute no edit; every other link is resolved against the file's
old location, and when the resolved target is itself renamed by the batch
(the same resource or a descendant of a renamed directory) the rewrite
chains through to the target's new location (the first matching batch
entry); concretely, moving `/ws/b.md` to `/ws/sub2/b.md` while `/ws/a.md`
moves to `/ws/sub/a.md` rewrites the `./a.md` link inside `b.md` to
`../sub/a.md`, the new target's new relative path, not the stale
`../a.md`. -/
theorem C4_batch_rename_self_links :
    (∀ (removeExt : Href → Uri → Uri) (ws : Workspace) (doc : TextDoc)
        (link : MdLink) (edit : FileRename) (allEdits : List FileRename),
      (link.source.hrefText.head? == some '#') = true →
      addEditsForLinksInSelf removeExt ws doc link edit allEdits = none) ∧
    (∀ (removeExt : Href → Uri → Uri) (ws : Workspace) (doc : TextDoc)
        (link : MdLink) (edit : FileRename) (allEdits : List FileRename),
      (link.source.hrefText.head? == some '/') = true →
      addEditsForLinksInSelf removeExt ws doc link edit allEdits = none) ∧
    (∀ (removeExt : Href → Uri → Uri) (ws : Workspace) (doc : TextDoc)
        (link : MdLink) (edit : FileRename) (allEdits : List FileRename)
        (res : Uri) (rfrag : List Char),
      (link.source.hrefText.head? == some '#') = false →
      (link.source.hrefText.head? == some '/') = false →
      resolveInternalDocumentLink edit.oldUri link.source.hrefText ws = some (res, rfrag) →
      addEditsForLinksInSelf removeExt ws doc link edit allEdits =
        addLinkRenameEdit removeExt ws doc.uri link
          (match allEdits.find? (fun e2 =>
              isSameResource e2.oldUri res || isParentDir e2.oldUri res) with
           | some e2 => e2.newUri.joinPath (joinSegs (relativeSegs e2.oldUri.segs res.segs))
           | none => res)) ∧
    tryAddEditsInSelf modelUriParse (fun _ => []) emptyHtmlParse (fun _ => false)
        (fun _ u => u) c4Workspace c4SelfEdit c4Batch =
      [.replace (fileUri ["ws", "sub2", "b.md"]) (mkRange 0 4 0 10) "../sub/a.md".data] := by
  refine ⟨?_, ?_, ?_, ?_⟩
  · intro removeExt ws doc link edit allEdits h
    unfold addEditsForLinksInSelf
    cases link.href <;> simp [h]
  · intro removeExt ws doc link edit allEdits h
    unfold addEditsForLinksInSelf
    cases link.href <;> simp [h]
  · intro removeExt ws doc link edit allEdits res rfrag h1 h2 hres
    unfold addEditsForLinksInSelf addLinkRenameEdit
    cases hh : link.href with
    | internal p frag => simp [h1, h2, hres]
    | external u => rfl
    | reference r => rfl
  · decide

/-- C4 witness: the skip and chain-through branches at the fixture inputs. -/
theorem C4_batch_rename_self_links_witness :
    ((c4HashLink.source.hrefText.head? == some '#') = true ∧
      addEditsForLinksInSelf (fun _ u => u) c4Workspace c4Doc c4HashLink c4SelfEdit c4Batch = none) ∧
    (resolveInternalDocumentLink c4SelfEdit.oldUri c4Link.source.hrefText c4Workspace =
        some (fileUri ["ws", "a.md"], []) ∧
      addEditsForLinksInSelf (fun _ u => u) c4Workspace c4Doc c4Link c4SelfEdit c4Batch =
        addLinkRenameEdit (fun _ u => u) c4Workspace c4Doc.uri c4Link
          (match c4Batch.find? (fun e2 =>
              isSameResource e2.oldUri (fileUri ["ws", "a.md"]) ||
                isParentDir e2.oldUri (fileUri ["ws", "a.md"])) with
           | some e2 => e2.newUri.joinPath
               (joinSegs (relativeSegs e2.oldUri.segs (fileUri ["ws", "a.md"]).segs))
           | none => fileUri ["ws", "a.md"])) :=
  ⟨⟨by decide,
    C4_batch_rename_self_links.1 (fun _ u => u) c4Workspace c4Doc c4HashLink c4SelfEdit c4Batch
      (by decide)⟩,
   ⟨by decide,
    C4_batch_rename_self_links.2.2.1 (fun _ u => u) c4Workspace c4Doc c4Link c4SelfEdit c4Batch
      (fileUri ["ws", "a.md"]) [] (by decide) (by decide) (by decide)⟩⟩

/-- C1: renaming a header builds a hypothetical copy of the containing
document with the header line replaced, recomputes its table of contents,
diffs old and new entries by ordinal index, rewrites the fragment spans
of all link references of every other header whose slug shifts to its
newly assigned slug, replaces the triggering header's declaration text,
and rewrites each gathered link reference's fragment span with the slug
computed for the new text (its whole range with the plain text when
there is no fragment span or the href is External): the edit set equals
the specification's declarative description, and on the three-duplicate
`# Header` fixture renaming the middle header to `New` also rewrites
the link to the third header from `header-2` to `header-1`. -/
theorem C1_header_rename_cascades :
    (∀ (slugify : List Char → String) (tocCreate : TextDoc → List TocEntry)
        (getRefs : TextDoc → Pos → List MdReference) (ws : Workspace)
        (allRefs : List MdReference) (newHeaderText : List Char),
      renameFragment slugify tocCreate getRefs ws allRefs newHeaderText =
        renameFragmentDesc slugify tocCreate getRefs ws allRefs newHeaderText) ∧
    renameFragment c1Slugify c1TocOf c1GetRefs c1Workspace c1AllRefs "New".data =
      [EditOp.replace (fileUri ["ws", "links.md"]) (mkRange 0 9 0 17) "header-1".data,
       EditOp.replace (fileUri ["ws", "h.md"]) (mkRange 1 2 1 8) "New".data,
       EditOp.replace (fileUri ["ws", "links.md"]) (mkRange 1 9 1 17) "new".data] := by
  constructor
  · intro slugify tocCreate getRefs ws allRefs newHeaderText
    unfold renameFragment renameFragmentDesc
    cases hh : allRefs.findSome? MdReference.headerInfo with
    | none => rfl
    | some pr =>
      obtain ⟨uri, range⟩ := pr
      dsimp only
      cases hd : ws.openMarkdownDocument uri with
      | none => rfl
      | some doc =>
        dsimp only
        rw [renameFold_eq]
        rfl
  · decide

end MdSpec
